import Mathlib

/-!
# Verification of the dashi observability dashboard core

A shallow embedding, in Lean 4, of the parts of the `dashi` code base that the
frozen claims are about:

* the alert engine (`internal/alerts/engine.go`): `compare`, `evalTarget`,
  `sendNotification`, and the `container_restarts` branch of `Evaluate`;
* the repository operations the engine and the retention job use
  (`internal/db/repo.go`): alert/alert-state/notification-event writes,
  `UpsertServiceAndContainer`, `DeleteOlderThan`;
* the stats normalizer (`internal/docker/normalize.go`);
* the host sampler's `Collect` (`internal/collector/host.go`);
* the docker log-stream parser and message sanitizer
  (`internal/logs/parser.go`).

Modelling conventions:

* Go `time.Time` values are integers (the engine and repository tables compare
  timestamps only through `Sub`/`<`, so a linear integer clock is faithful;
  log-entry timestamps are integers in nanoseconds since the Unix epoch).
* Go `float64` values are modelled by `ℚ`.  None of the claims settled below
  depends on rounding of IEEE doubles: the facts proved are of the form
  "this value is zero / is not zero / equals this exactly computed quantity",
  which agree between `ℚ` and `float64` on the inputs used.  `float64` has a
  NaN which `ℚ` lacks; the engine's `math.IsNaN` guard simply skips the
  evaluation, and no claim involves NaN values, so the guard is dropped.
* Go `uint64` arithmetic wraps modulo `2^64`; subtraction and addition of
  `uint64` counters are modelled by `u64sub`/`u64add` below, and `int64(u)`
  conversions by `i64ofU64`.
* SQL tables are lists of rows in insertion (rowid) order; `ON CONFLICT`
  upserts update the matching row in place and insert at the end otherwise,
  which is exactly SQLite's visible behaviour for these queries.
* The store is opened with `_foreign_keys=on` (`internal/db/sqlite.go`), so an
  `INSERT` into `notification_events` whose `alert_id` references no row of
  `alerts` fails; the engine discards that error.  `insertNotificationEvent`
  models the constraint.
-/

set_option autoImplicit false

namespace Dashi

/-- Wrapping `uint64` subtraction `a - b` (Go semantics). -/
def u64sub (a b : Nat) : Nat := (a + 2 ^ 64 - b % 2 ^ 64) % 2 ^ 64

/-- Wrapping `uint64` addition (Go semantics). -/
def u64add (a b : Nat) : Nat := (a + b) % 2 ^ 64

/-- Go's `int64(u)` conversion of a `uint64` value. -/
def i64ofU64 (n : Nat) : Int :=
  if n < 2 ^ 63 then (n : Int) else (n : Int) - 2 ^ 64

/-- First-match association-list lookup (model of a SQL point query on a
primary key). -/
def alookup {α β : Type} [DecidableEq α] : List (α × β) → α → Option β
  | [], _ => none
  | (k', v) :: t, k => if k' = k then some v else alookup t k

/-- Association-list upsert: update the first row with the given key in place,
or append a fresh row at the end (model of `INSERT ... ON CONFLICT DO
UPDATE`). -/
def aupsert {α β : Type} [DecidableEq α] : List (α × β) → α → β → List (α × β)
  | [], k, v => [(k, v)]
  | (k', v') :: t, k, v =>
      if k' = k then (k, v) :: t else (k', v') :: aupsert t k v

theorem alookup_aupsert_self {α β : Type} [DecidableEq α]
    (l : List (α × β)) (k : α) (v : β) : alookup (aupsert l k v) k = some v := by
  induction l with
  | nil => simp [aupsert, alookup]
  | cons hd tl ih =>
    obtain ⟨k', v'⟩ := hd
    by_cases h : k' = k <;> simp [aupsert, alookup, h, ih]

theorem alookup_aupsert_ne {α β : Type} [DecidableEq α]
    (l : List (α × β)) (k k' : α) (v : β) (h : k ≠ k') :
    alookup (aupsert l k v) k' = alookup l k' := by
  induction l with
  | nil => simp [aupsert, alookup, h]
  | cons hd tl ih =>
    obtain ⟨k₀, v₀⟩ := hd
    by_cases hk : k₀ = k
    · subst hk
      simp [aupsert, alookup, h]
    · simp [aupsert, alookup, hk, ih]

/-- If every element of a list is fixed by `f`, mapping `f` is the identity. -/
theorem map_eq_self_of_forall {α : Type} (l : List α) (f : α → α)
    (h : ∀ a ∈ l, f a = a) : l.map f = l := by
  induction l with
  | nil => rfl
  | cons hd tl ih =>
    simp only [List.map_cons, h hd (by simp)]
    rw [ih (fun a ha => h a (by simp [ha]))]

/-- Filtering by `p` after filtering by a weaker predicate `q` is filtering
by `p` alone. -/
theorem filter_filter_of_imp {α : Type} (l : List α) (p q : α → Bool)
    (h : ∀ a, p a = true → q a = true) :
    (l.filter q).filter p = l.filter p := by
  induction l with
  | nil => rfl
  | cons a t ih =>
    by_cases hq : q a = true
    · by_cases hp : p a = true <;> simp [List.filter_cons, hq, hp, ih]
    · have hp : p a = false := by
        cases hpa : p a
        · rfl
        · exact absurd (h a hpa) hq
      simp [List.filter_cons, hq, hp, ih]

/-! ## The alert engine (`internal/alerts/engine.go`)

Rows of the `alerts`, `alert_states` and `notification_events` tables, plus the
list of texts handed to `notify.Send` (the Telegram side channel), are bundled
into one `EngineWorld`.  `models.AlertRule` keeps the fields of the Go struct.
-/

/-- `models.AlertRule`. -/
structure AlertRule where
  id : Int
  name : String
  targetType : String
  targetId : Option String
  metricKey : String
  operator : String
  threshold : ℚ
  forSeconds : Int
  cooldownSeconds : Int
  enabled : Bool
  deriving Repr, DecidableEq

/-- A row of the `alerts` table.  `details_json` is the serialisation of
`{"value": v, "target": label}` and is modelled by its two entries. -/
structure Alert where
  id : Int
  ruleId : Int
  target : String
  status : String
  startedTs : Int
  endedTs : Option Int
  summary : String
  detailsValue : ℚ
  detailsTarget : String
  deriving Repr, DecidableEq

/-- A row of the `alert_states` table (sans its key). -/
structure AlertStateRow where
  state : String
  sinceTs : Int
  lastFiredTs : Option Int
  lastRecoveredTs : Option Int
  deriving Repr, DecidableEq

/-- A row of the `notification_events` table. -/
structure NotificationEvent where
  alertId : Int
  channel : String
  status : String
  attempts : Nat
  lastError : String
  sentTs : Option Int
  deriving Repr, DecidableEq

/-- The persistent state the engine touches, plus the log of texts passed to
`notify.Send`.  `nextAlertId` is the next SQLite `AUTOINCREMENT` id of the
`alerts` table (1 on a fresh database). -/
structure EngineWorld where
  alerts : List Alert
  states : List ((Int × String) × AlertStateRow)
  events : List NotificationEvent
  nextAlertId : Int
  sent : List String
  deriving Repr, DecidableEq

/-- The outcome of one `notify.Send` attempt; the Telegram client either
succeeds on every attempt or fails on every attempt with message `errText`
(the engine retries the same request against the same endpoint). -/
structure Notifier where
  ok : Bool
  errText : String

/-- `Repository.GetAlertState` (`sql.ErrNoRows` is `none`). -/
def getAlertState (w : EngineWorld) (ruleId : Int) (target : String) :
    Option AlertStateRow :=
  alookup w.states (ruleId, target)

/-- `Repository.UpsertAlertState`. -/
def upsertAlertState (w : EngineWorld) (ruleId : Int) (target : String)
    (row : AlertStateRow) : EngineWorld :=
  { w with states := aupsert w.states (ruleId, target) row }

/-- `Repository.CreateAlert`: insert and return the fresh row id. -/
def createAlert (w : EngineWorld) (ruleId : Int) (target status summary : String)
    (detailsValue : ℚ) (detailsTarget : String) (started : Int) :
    Int × EngineWorld :=
  (w.nextAlertId,
   { w with
      alerts := w.alerts ++
        [⟨w.nextAlertId, ruleId, target, status, started, none, summary,
          detailsValue, detailsTarget⟩]
      nextAlertId := w.nextAlertId + 1 })

/-- `Repository.CloseAlert`: `UPDATE alerts SET status='recovered',
ended_ts_nullable=? WHERE rule_id=? AND target_fingerprint=? AND
status='firing'`. -/
def closeAlert (w : EngineWorld) (ruleId : Int) (target : String)
    (ended : Int) : EngineWorld :=
  { w with
      alerts := w.alerts.map fun a =>
        if a.ruleId = ruleId ∧ a.target = target ∧ a.status = "firing" then
          { a with status := "recovered", endedTs := some ended }
        else a }

/-- `Repository.InsertNotificationEvent`.  The table has
`FOREIGN KEY(alert_id) REFERENCES alerts(id)` and the store runs with
`foreign_keys=on`, so the insert succeeds only when some alert row carries
`alertId`; otherwise the statement fails and the caller discards the error. -/
def insertNotificationEvent (w : EngineWorld) (ev : NotificationEvent) :
    EngineWorld :=
  if w.alerts.any (fun a => a.id = ev.alertId) then
    { w with events := w.events ++ [ev] }
  else w

/-- `%.2f` formatting of a `ℚ` value (model of Go's `fmt.Sprintf("%.2f", x)`;
rounds half away from zero where Go rounds half to even — no claim below
depends on the digits). -/
def fmt2 (q : ℚ) : String :=
  let sign := if q < 0 then "-" else ""
  let a : ℚ := if q < 0 then -q else q
  let r : ℚ := a * 100 + 1 / 2
  let cents : Int := r.num / (r.den : Int)
  let ip := cents / 100
  let fp := cents % 100
  sign ++ toString ip ++ "." ++ (if fp < 10 then "0" else "") ++ toString fp

/-- The firing summary built in `evalTarget`. -/
def alertMsg (rule : AlertRule) (targetLabel : String) (value : ℚ) : String :=
  "ALERT " ++ rule.name ++ " [" ++ targetLabel ++ "] value=" ++ fmt2 value ++
    " threshold " ++ rule.operator ++ " " ++ fmt2 rule.threshold

/-- The recovery text built in `evalTarget`. -/
def recoveryMsg (rule : AlertRule) (targetLabel : String) (value : ℚ) : String :=
  "RECOVERY " ++ rule.name ++ " [" ++ targetLabel ++ "] value=" ++ fmt2 value

/-- `compare` from `engine.go`. -/
def compare (v : ℚ) (op : String) (threshold : ℚ) : Bool :=
  if op = ">" then v > threshold
  else if op = ">=" then v ≥ threshold
  else if op = "<" then v < threshold
  else if op = "<=" then v ≤ threshold
  else if op = "==" then v = threshold
  else false

/-- `shortTarget` from `engine.go`. -/
def shortTarget (id : String) : String :=
  if id.length > 12 then id.take 12 else id

/-- `Engine.sendNotification`: up to 3 `Send` attempts; on success record a
`sent` event after 1 attempt (our notifier is deterministic per call), on
terminal failure record `failed` after 3 attempts.  Every attempt hands the
text to the notifier, which the `sent` log records. -/
def sendNotification (nf : Notifier) (now : Int) (w : EngineWorld)
    (alertId : Int) (msg : String) : EngineWorld :=
  if nf.ok then
    insertNotificationEvent { w with sent := w.sent ++ [msg] }
      ⟨alertId, "telegram", "sent", 1, "", some now⟩
  else
    insertNotificationEvent { w with sent := w.sent ++ [msg, msg, msg] }
      ⟨alertId, "telegram", "failed", 3, nf.errText, none⟩

/-- `Engine.evalTarget`.  `value` is a non-NaN `float64` (see the module
comment); `now` is the injected clock `e.now().UTC()`. -/
def evalTarget (nf : Notifier) (w : EngineWorld) (rule : AlertRule)
    (targetKey targetLabel : String) (value : ℚ) (now : Int) : EngineWorld :=
  let shouldFire := compare value rule.operator rule.threshold
  let st := getAlertState w rule.id targetKey
  let state := match st with | none => "OK" | some r => r.state
  let since := match st with | none => now | some r => r.sinceTs
  let lastFired := match st with | none => none | some r => r.lastFiredTs
  if shouldFire then
    if state = "OK" then
      if rule.forSeconds ≤ 0 then
        match lastFired with
        | some lf =>
          if now - lf < rule.cooldownSeconds then
            upsertAlertState w rule.id targetKey ⟨"COOLDOWN", now, some lf, none⟩
          else
            let msg := alertMsg rule targetLabel value
            let (alertId, w₁) :=
              createAlert w rule.id targetKey "firing" msg value targetLabel now
            let w₂ := sendNotification nf now w₁ alertId msg
            upsertAlertState w₂ rule.id targetKey ⟨"FIRING", now, some now, none⟩
        | none =>
          let msg := alertMsg rule targetLabel value
          let (alertId, w₁) :=
            createAlert w rule.id targetKey "firing" msg value targetLabel now
          let w₂ := sendNotification nf now w₁ alertId msg
          upsertAlertState w₂ rule.id targetKey ⟨"FIRING", now, some now, none⟩
      else
        upsertAlertState w rule.id targetKey ⟨"PENDING", now, lastFired, none⟩
    else if state = "PENDING" ∧ rule.forSeconds ≤ now - since then
      match lastFired with
      | some lf =>
        if now - lf < rule.cooldownSeconds then
          upsertAlertState w rule.id targetKey ⟨"COOLDOWN", now, some lf, none⟩
        else
          let msg := alertMsg rule targetLabel value
          let (alertId, w₁) :=
            createAlert w rule.id targetKey "firing" msg value targetLabel now
          let w₂ := sendNotification nf now w₁ alertId msg
          upsertAlertState w₂ rule.id targetKey ⟨"FIRING", since, some now, none⟩
      | none =>
        let msg := alertMsg rule targetLabel value
        let (alertId, w₁) :=
          createAlert w rule.id targetKey "firing" msg value targetLabel now
        let w₂ := sendNotification nf now w₁ alertId msg
        upsertAlertState w₂ rule.id targetKey ⟨"FIRING", since, some now, none⟩
    else w
  else
    if state = "FIRING" ∨ state = "PENDING" ∨ state = "COOLDOWN" then
      let w₁ := closeAlert w rule.id targetKey now
      let w₂ :=
        if state = "FIRING" then
          sendNotification nf now w₁ 0 (recoveryMsg rule targetLabel value)
        else w₁
      upsertAlertState w₂ rule.id targetKey ⟨"OK", now, lastFired, some now⟩
    else w

/-! ### The `container_restarts` branch of `Engine.Evaluate`

`Evaluate` loads the rules and the container table and, for the rule with
`metric_key = "container_restarts"`, runs the loop of `engine.go` lines 68-96
over the containers, threading the in-memory maps `lastRest` (container id ↦
last seen restart count) and `lastSvc` (service id ↦ last container id).
`ListContainers` is `SELECT ... FROM containers` without `ORDER BY`; SQLite
scans the table in rowid order, i.e. insertion order, which is the list
order of the `containers` field below. -/

/-- `models.Container`. -/
structure Container where
  id : String
  serviceId : String
  name : String
  status : String
  startedAt : Option Int
  lastSeenAt : Int
  restartCount : Int
  deriving Repr, DecidableEq

/-- The engine's in-memory restart-detection maps. -/
structure EngineMem where
  lastRest : List (String × Int)
  lastSvc : List (String × String)
  deriving Repr, DecidableEq

/-- One iteration of the `container_restarts` loop body. -/
def evalRestartStep (nf : Notifier) (rule : AlertRule) (now : Int)
    (acc : EngineMem × EngineWorld) (c : Container) : EngineMem × EngineWorld :=
  let mem := acc.1
  let w := acc.2
  let restarted₀ : ℚ :=
    match alookup mem.lastRest c.id with
    | some prev => if prev < c.restartCount then 1 else 0
    | none => 0
  let restarted : ℚ :=
    match alookup mem.lastSvc c.serviceId with
    | some prevID => if prevID ≠ c.id then 1 else restarted₀
    | none => restarted₀
  let mem' : EngineMem :=
    ⟨aupsert mem.lastRest c.id c.restartCount,
     aupsert mem.lastSvc c.serviceId c.id⟩
  (mem', evalTarget nf w rule c.id (shortTarget c.id) restarted now)

/-- The `container_restarts` arm of one `Engine.Evaluate` call: the loop over
the container table. -/
def evalRestartRule (nf : Notifier) (rule : AlertRule) (now : Int)
    (containers : List Container) (mem : EngineMem) (w : EngineWorld) :
    EngineMem × EngineWorld :=
  containers.foldl (evalRestartStep nf rule now) (mem, w)

/-! ## Claim theorems for the alert engine -/

/-- A notifier whose sends succeed (the test suite's stubbed Telegram). -/
def okNotifier : Notifier := ⟨true, ""⟩

/-- A fresh database: no alerts, no states, no events; SQLite AUTOINCREMENT
ids start at 1. -/
def freshWorld : EngineWorld := ⟨[], [], [], 1, []⟩

/-- The seeded `Container restarted` rule after the test suite's
`UpdateRuleThresholds(id, 1, 0, 0, true)`: threshold 1, `for_seconds` 0,
`cooldown_seconds` 0, enabled. -/
def restartRule : AlertRule :=
  ⟨5, "Container restarted", "container", none, "container_restarts", ">=",
   1, 0, 0, true⟩

/-- C1 scenario, first evaluation: value 1 satisfies `1 >= 1` at time 100. -/
def c1w₁ : EngineWorld :=
  evalTarget okNotifier freshWorld restartRule "c1" "c1" 1 100

/-- C1 scenario, second evaluation: value 0 fails `0 >= 1` at time 200. -/
def c1w₂ : EngineWorld :=
  evalTarget okNotifier c1w₁ restartRule "c1" "c1" 0 200

/-- **C1.** For a rule with `for_seconds = 0`, `cooldown_seconds = 0` and a
target with no prior state, one firing evaluation creates exactly one alert
row with status `firing`, records a `sent` notification event for it, and
moves the state to FIRING; the next non-firing evaluation updates that row to
`recovered` with `ended_ts` set, moves the state to OK and hands a RECOVERY
text to the notifier — but no recovery notification event is recorded: the
engine calls `sendNotification(ctx, 0, rmsg)` and the insert into
`notification_events` with `alert_id = 0` violates the table's foreign key
(`foreign_keys=on`), so the recorded events after recovery are exactly the
single firing event.  This contradicts the claim's "records a recovery
notification event". -/
theorem c1_recovery_event_never_recorded :
    c1w₁.alerts =
      [⟨1, 5, "c1", "firing", 100, none, alertMsg restartRule "c1" 1, 1, "c1"⟩]
    ∧ getAlertState c1w₁ 5 "c1" = some ⟨"FIRING", 100, some 100, none⟩
    ∧ c1w₁.events = [⟨1, "telegram", "sent", 1, "", some 100⟩]
    ∧ c1w₂.alerts =
      [⟨1, 5, "c1", "recovered", 100, some 200, alertMsg restartRule "c1" 1, 1,
        "c1"⟩]
    ∧ getAlertState c1w₂ 5 "c1" = some ⟨"OK", 200, some 100, some 200⟩
    ∧ c1w₂.sent =
      [alertMsg restartRule "c1" 1, recoveryMsg restartRule "c1" 0]
    ∧ c1w₂.events = c1w₁.events :=
  ⟨rfl, rfl, rfl, rfl, rfl, rfl, rfl⟩

/-- The C3 scenario's historical container row: status `missing`, last seen
ten minutes before `now = 1000`, restart count 0. -/
def oldContainer : Container :=
  ⟨"container-old", "svc", "svc", "missing", none, 400, 0⟩

/-- The C3 scenario's live container row: status `running`, last seen now,
restart count 0. -/
def newContainer : Container :=
  ⟨"container-new", "svc", "svc", "running", none, 1000, 0⟩

/-- First `Evaluate` of the C3 scenario (fresh engine, fresh database). -/
def c3eval₁ : EngineMem × EngineWorld :=
  evalRestartRule okNotifier restartRule 1000 [oldContainer, newContainer]
    ⟨[], []⟩ freshWorld

/-- Second `Evaluate` of the C3 scenario. -/
def c3eval₂ : EngineMem × EngineWorld :=
  evalRestartRule okNotifier restartRule 1000 [oldContainer, newContainer]
    c3eval₁.1 c3eval₁.2

/-- **C3.** Contrary to the claim (and to the repository's own test
`TestEvaluateContainerRestartsIgnoresHistoricalMissingContainers`, which
asserts zero alerts), the very first `Evaluate` over a table holding two
container rows for the same service id already creates a firing
`container_restarts` alert: while processing `container-old` the loop stores
`lastSvc["svc"] = "container-old"`, so `container-new` — observed for the
first time — is flagged as `service_container_changed`.  The second
`Evaluate` then also fires for `container-old`, giving two firing alerts
where the claim demands zero. -/
theorem c3_restart_fires_on_first_observation :
    ((c3eval₁.2).alerts.filter
        (fun a => a.ruleId = restartRule.id ∧ a.status = "firing")).length = 1
    ∧ ((c3eval₂.2).alerts.filter
        (fun a => a.ruleId = restartRule.id ∧ a.status = "firing")).length = 2
    ∧ (c3eval₁.2).alerts.map (fun a => a.target) = ["container-new"]
    ∧ (c3eval₂.2).alerts.map (fun a => a.target) =
        ["container-new", "container-old"] :=
  ⟨rfl, rfl, rfl, rfl⟩

/-- **C10.** For a (rule, target) pair whose stored state is COOLDOWN: an
evaluation in which the comparison holds changes nothing at all (no state
update, no alert, no notification, however much time has passed since
`last_fired_ts`); an evaluation in which the comparison fails moves the state
to OK (closing any firing alert row of the pair) and is the only transition
out of COOLDOWN — it sends nothing and records no event either, since the
previous state was not FIRING. -/
theorem c10_cooldown_only_exits_to_ok
    (nf : Notifier) (w : EngineWorld) (rule : AlertRule) (tk tl : String)
    (v : ℚ) (now : Int) (row : AlertStateRow)
    (hst : getAlertState w rule.id tk = some row)
    (hcool : row.state = "COOLDOWN") :
    (compare v rule.operator rule.threshold = true →
      evalTarget nf w rule tk tl v now = w)
    ∧ (compare v rule.operator rule.threshold = false →
      getAlertState (evalTarget nf w rule tk tl v now) rule.id tk =
          some ⟨"OK", now, row.lastFiredTs, some now⟩
        ∧ (evalTarget nf w rule tk tl v now).sent = w.sent
        ∧ (evalTarget nf w rule tk tl v now).events = w.events
        ∧ (evalTarget nf w rule tk tl v now).alerts.length = w.alerts.length) := by
  constructor
  · intro hc
    simp [evalTarget, hst, hcool, hc]
  · intro hc
    simp only [evalTarget, hst, hcool, hc]
    norm_num
    refine ⟨?_, ?_, ?_, ?_⟩
    · simp [getAlertState, upsertAlertState, alookup_aupsert_self]
    · simp [upsertAlertState, closeAlert]
    · simp [upsertAlertState, closeAlert]
    · simp [upsertAlertState, closeAlert]

/-- Witness for C10 at a concrete COOLDOWN state. -/
theorem c10_cooldown_only_exits_to_ok_witness :
    getAlertState
        ⟨[], [((5, "t"), ⟨"COOLDOWN", 7, some 7, none⟩)], [], 1, []⟩ 5 "t" =
      some ⟨"COOLDOWN", 7, some 7, none⟩
    ∧ evalTarget okNotifier
        ⟨[], [((5, "t"), ⟨"COOLDOWN", 7, some 7, none⟩)], [], 1, []⟩
        restartRule "t" "t" 1 1000 =
      ⟨[], [((5, "t"), ⟨"COOLDOWN", 7, some 7, none⟩)], [], 1, []⟩ :=
  ⟨rfl,
   (c10_cooldown_only_exits_to_ok okNotifier
      ⟨[], [((5, "t"), ⟨"COOLDOWN", 7, some 7, none⟩)], [], 1, []⟩
      restartRule "t" "t" 1 1000 ⟨"COOLDOWN", 7, some 7, none⟩
      rfl rfl).1 rfl⟩

/-- **C2.**  The canonical cooldown episode for a fresh (rule, target) pair:
a firing evaluation at `t1`, a recovery at `t2`, and a second would-be firing
transition at `t3` with `t3 - t1 <` the rule's `cooldown_seconds`.  The second
transition enters COOLDOWN carrying `last_fired_ts = t1`; over the whole
episode exactly one alert row is created (the `t1` row, closed at `t2`) and
exactly one notification event is recorded (the firing one — the texts handed
to the notifier are the single ALERT message plus the RECOVERY message sent
when the episode recovered); the suppressed transition itself creates no
alert, records no event and sends nothing. -/
theorem c2_cooldown_suppresses_second_firing
    (nf : Notifier) (w : EngineWorld) (rule : AlertRule) (tk tl : String)
    (v1 v2 v3 : ℚ) (t1 t2 t3 : Int)
    (hnf : nf.ok = true)
    (hfor : rule.forSeconds ≤ 0)
    (hst : getAlertState w rule.id tk = none)
    (halerts : ∀ a ∈ w.alerts,
      ¬(a.ruleId = rule.id ∧ a.target = tk ∧ a.status = "firing"))
    (hids : ∀ a ∈ w.alerts, a.id ≠ 0)
    (hnz : w.nextAlertId ≠ 0)
    (hv1 : compare v1 rule.operator rule.threshold = true)
    (hv2 : compare v2 rule.operator rule.threshold = false)
    (hv3 : compare v3 rule.operator rule.threshold = true)
    (hcool : t3 - t1 < rule.cooldownSeconds) :
    getAlertState
        (evalTarget nf (evalTarget nf (evalTarget nf w rule tk tl v1 t1)
          rule tk tl v2 t2) rule tk tl v3 t3) rule.id tk =
      some ⟨"COOLDOWN", t3, some t1, none⟩
    ∧ (evalTarget nf (evalTarget nf (evalTarget nf w rule tk tl v1 t1)
          rule tk tl v2 t2) rule tk tl v3 t3).alerts =
      w.alerts ++
        [⟨w.nextAlertId, rule.id, tk, "recovered", t1, some t2,
          alertMsg rule tl v1, v1, tl⟩]
    ∧ (evalTarget nf (evalTarget nf (evalTarget nf w rule tk tl v1 t1)
          rule tk tl v2 t2) rule tk tl v3 t3).events =
      w.events ++ [⟨w.nextAlertId, "telegram", "sent", 1, "", some t1⟩]
    ∧ (evalTarget nf (evalTarget nf (evalTarget nf w rule tk tl v1 t1)
          rule tk tl v2 t2) rule tk tl v3 t3).sent =
      w.sent ++ [alertMsg rule tl v1, recoveryMsg rule tl v2]
    ∧ (evalTarget nf (evalTarget nf (evalTarget nf w rule tk tl v1 t1)
          rule tk tl v2 t2) rule tk tl v3 t3).alerts =
      (evalTarget nf (evalTarget nf w rule tk tl v1 t1) rule tk tl v2 t2).alerts
    ∧ (evalTarget nf (evalTarget nf (evalTarget nf w rule tk tl v1 t1)
          rule tk tl v2 t2) rule tk tl v3 t3).events =
      (evalTarget nf (evalTarget nf w rule tk tl v1 t1) rule tk tl v2 t2).events
    ∧ (evalTarget nf (evalTarget nf (evalTarget nf w rule tk tl v1 t1)
          rule tk tl v2 t2) rule tk tl v3 t3).sent =
      (evalTarget nf (evalTarget nf w rule tk tl v1 t1) rule tk tl v2 t2).sent := by
  have h1 : evalTarget nf w rule tk tl v1 t1 =
      ⟨w.alerts ++
         [⟨w.nextAlertId, rule.id, tk, "firing", t1, none,
           alertMsg rule tl v1, v1, tl⟩],
       aupsert w.states (rule.id, tk) ⟨"FIRING", t1, some t1, none⟩,
       w.events ++ [⟨w.nextAlertId, "telegram", "sent", 1, "", some t1⟩],
       w.nextAlertId + 1,
       w.sent ++ [alertMsg rule tl v1]⟩ := by
    simp only [evalTarget, hst, hv1, hfor]
    simp [createAlert, sendNotification, hnf, insertNotificationEvent,
      upsertAlertState]
  rw [h1]
  have h2 : evalTarget nf
      (⟨w.alerts ++
          [⟨w.nextAlertId, rule.id, tk, "firing", t1, none,
            alertMsg rule tl v1, v1, tl⟩],
        aupsert w.states (rule.id, tk) ⟨"FIRING", t1, some t1, none⟩,
        w.events ++ [⟨w.nextAlertId, "telegram", "sent", 1, "", some t1⟩],
        w.nextAlertId + 1,
        w.sent ++ [alertMsg rule tl v1]⟩ : EngineWorld)
      rule tk tl v2 t2 =
      ⟨w.alerts ++
         [⟨w.nextAlertId, rule.id, tk, "recovered", t1, some t2,
           alertMsg rule tl v1, v1, tl⟩],
       aupsert (aupsert w.states (rule.id, tk) ⟨"FIRING", t1, some t1, none⟩)
         (rule.id, tk) ⟨"OK", t2, some t1, some t2⟩,
       w.events ++ [⟨w.nextAlertId, "telegram", "sent", 1, "", some t1⟩],
       w.nextAlertId + 1,
       w.sent ++ [alertMsg rule tl v1, recoveryMsg rule tl v2]⟩ := by
    simp only [evalTarget, getAlertState, alookup_aupsert_self, hv2]
    simp only [closeAlert, sendNotification, hnf, insertNotificationEvent,
      upsertAlertState, List.map_append, List.map_cons, List.map_nil,
      List.any_append, List.any_cons, List.any_nil]
    have hmap : w.alerts.map
        (fun a => if a.ruleId = rule.id ∧ a.target = tk ∧ a.status = "firing"
          then { a with status := "recovered", endedTs := some t2 } else a) =
        w.alerts :=
      map_eq_self_of_forall _ _ (fun a ha => by simp [halerts a ha])
    have hany : w.alerts.any (fun a => a.id = (0 : Int)) = false := by
      rw [List.any_eq_false]
      intro a ha
      simpa using hids a ha
    simp [hmap, hany, hnz]
  rw [h2]
  have h3 : evalTarget nf
      (⟨w.alerts ++
          [⟨w.nextAlertId, rule.id, tk, "recovered", t1, some t2,
            alertMsg rule tl v1, v1, tl⟩],
        aupsert (aupsert w.states (rule.id, tk) ⟨"FIRING", t1, some t1, none⟩)
          (rule.id, tk) ⟨"OK", t2, some t1, some t2⟩,
        w.events ++ [⟨w.nextAlertId, "telegram", "sent", 1, "", some t1⟩],
        w.nextAlertId + 1,
        w.sent ++ [alertMsg rule tl v1, recoveryMsg rule tl v2]⟩ : EngineWorld)
      rule tk tl v3 t3 =
      ⟨w.alerts ++
         [⟨w.nextAlertId, rule.id, tk, "recovered", t1, some t2,
           alertMsg rule tl v1, v1, tl⟩],
       aupsert
         (aupsert (aupsert w.states (rule.id, tk) ⟨"FIRING", t1, some t1, none⟩)
           (rule.id, tk) ⟨"OK", t2, some t1, some t2⟩)
         (rule.id, tk) ⟨"COOLDOWN", t3, some t1, none⟩,
       w.events ++ [⟨w.nextAlertId, "telegram", "sent", 1, "", some t1⟩],
       w.nextAlertId + 1,
       w.sent ++ [alertMsg rule tl v1, recoveryMsg rule tl v2]⟩ := by
    simp only [evalTarget, getAlertState, alookup_aupsert_self, hv3, hfor]
    simp [hcool, upsertAlertState]
  rw [h3]
  refine ⟨?_, rfl, rfl, rfl, rfl, rfl, rfl⟩
  simp [getAlertState, alookup_aupsert_self]

/-- The `Container restarted` rule exactly as seeded by `Migrate`:
threshold 1, `for_seconds` 0, `cooldown_seconds` 60. -/
def seededRestartRule : AlertRule :=
  ⟨5, "Container restarted", "container", none, "container_restarts", ">=",
   1, 0, 60, true⟩

/-- Witness for C2: the seeded restart rule (cooldown 60 s) on a fresh
database, firing at 100, recovering at 110, and firing again at 120. -/
theorem c2_cooldown_suppresses_second_firing_witness :
    getAlertState
        (evalTarget okNotifier
          (evalTarget okNotifier
            (evalTarget okNotifier freshWorld seededRestartRule "t" "t" 1 100)
            seededRestartRule "t" "t" 0 110)
          seededRestartRule "t" "t" 1 120) 5 "t" =
      some ⟨"COOLDOWN", 120, some 100, none⟩
    ∧ (evalTarget okNotifier
          (evalTarget okNotifier
            (evalTarget okNotifier freshWorld seededRestartRule "t" "t" 1 100)
            seededRestartRule "t" "t" 0 110)
          seededRestartRule "t" "t" 1 120).alerts =
      [⟨1, 5, "t", "recovered", 100, some 110,
        alertMsg seededRestartRule "t" 1, 1, "t"⟩] := by
  have h := c2_cooldown_suppresses_second_firing okNotifier freshWorld
    seededRestartRule "t" "t" 1 0 1 100 110 120 rfl (by decide) rfl
    (by intro a ha; simp [freshWorld] at ha) (by intro a ha; simp [freshWorld] at ha)
    (by decide) rfl rfl rfl (by decide)
  exact ⟨h.1, h.2.1⟩

/-! ## The stats normalizer (`internal/docker/normalize.go`)

The Docker stats snapshot (`docker.Stats`) restricted to the fields
`NormalizeStats` reads.  Go's `Networks` map is modelled as the list of its
entries: the function only sums over them, so the iteration order of the map
does not matter. -/

/-- `cpu_stats.cpu_usage`. -/
structure CPUUsage where
  totalUsage : Nat
  percpuUsage : List Nat
  usageInKernelmode : Nat
  usageInUsermode : Nat
  deriving Repr, DecidableEq

/-- `cpu_stats`. -/
structure CPUStatsJson where
  cpuUsage : CPUUsage
  systemCpuUsage : Nat
  onlineCpus : Nat
  deriving Repr, DecidableEq

/-- `precpu_stats`. -/
structure PreCPUStatsJson where
  totalUsage : Nat
  systemCpuUsage : Nat
  deriving Repr, DecidableEq

/-- One entry of the `networks` map. -/
structure NetworkEntry where
  rxBytes : Nat
  txBytes : Nat
  deriving Repr, DecidableEq

/-- One entry of `blkio_stats.io_service_bytes_recursive`. -/
structure BlkioEntry where
  op : String
  value : Nat
  deriving Repr, DecidableEq

/-- `docker.Stats`. -/
structure Stats where
  cpuStats : CPUStatsJson
  preCpuStats : PreCPUStatsJson
  memoryUsage : Nat
  memoryLimit : Nat
  networks : List NetworkEntry
  blkio : List BlkioEntry
  deriving Repr, DecidableEq

/-- `models.ContainerMetric`.  `NormalizeStats` leaves `TS` at its zero
value. -/
structure ContainerMetric where
  ts : Int
  containerId : String
  cpuPct : ℚ
  memUsedBytes : Int
  memLimitBytes : Int
  netRXBytes : Int
  netTXBytes : Int
  blkReadBytes : Int
  blkWriteBytes : Int
  deriving Repr, DecidableEq

/-- `NormalizeStats` from `normalize.go`.  The `uint64` subtractions wrap
(`u64sub`), the running `uint64` sums wrap (`u64add`), and the final `int64`
casts are `i64ofU64`. -/
def NormalizeStats (id : String) (s : Stats) : ContainerMetric :=
  let sysDelta : ℚ :=
    (u64sub s.cpuStats.systemCpuUsage s.preCpuStats.systemCpuUsage : ℚ)
  let cpuDelta : ℚ :=
    (u64sub s.cpuStats.cpuUsage.totalUsage s.preCpuStats.totalUsage : ℚ)
  let cpus₀ : ℚ := (s.cpuStats.onlineCpus : ℚ)
  let cpus : ℚ :=
    if cpus₀ = 0 then
      let cpus₁ : ℚ := (s.cpuStats.cpuUsage.percpuUsage.length : ℚ)
      if cpus₁ = 0 then 1 else cpus₁
    else cpus₀
  let cpuPct : ℚ :=
    if 0 < sysDelta ∧ 0 ≤ cpuDelta then cpuDelta / sysDelta * cpus * 100 else 0
  let rx := s.networks.foldl (fun acc n => u64add acc n.rxBytes) 0
  let tx := s.networks.foldl (fun acc n => u64add acc n.txBytes) 0
  let br := s.blkio.foldl
    (fun acc io => if io.op = "Read" then u64add acc io.value else acc) 0
  let bw := s.blkio.foldl
    (fun acc io => if io.op = "Write" then u64add acc io.value else acc) 0
  { ts := 0
    containerId := id
    cpuPct := cpuPct
    memUsedBytes := i64ofU64 s.memoryUsage
    memLimitBytes := i64ofU64 s.memoryLimit
    netRXBytes := i64ofU64 rx
    netTXBytes := i64ofU64 tx
    blkReadBytes := i64ofU64 br
    blkWriteBytes := i64ofU64 bw }

/-- A snapshot taken just after the system CPU counter went backwards
(e.g. a counter reset): current system counter 50, previous 100; container
CPU counter advanced by 100. -/
def wrappedStats : Stats :=
  ⟨⟨⟨200, [], 0, 0⟩, 50, 1⟩, ⟨100, 100⟩, 0, 0, [], []⟩

/-- **C6, counterexample.**  The claim says cpu% is 0 whenever
`system_cpu − presystem_cpu ≤ 0`, "in particular when the current counters
are smaller than the previous ones".  But the subtraction is on `uint64` and
wraps: with current system counter 50 and previous 100 the delta becomes
`2^64 − 50 > 0`, and the returned cpu% is the (tiny but) non-zero
`100 / (2^64 − 50) * 1 * 100`. -/
theorem c6_wrapped_delta_not_zero :
    (wrappedStats.cpuStats.systemCpuUsage : Int) -
        (wrappedStats.preCpuStats.systemCpuUsage : Int) ≤ 0
    ∧ (NormalizeStats "c" wrappedStats).cpuPct ≠ 0 := by
  constructor
  · decide
  · have hval : (NormalizeStats "c" wrappedStats).cpuPct =
        10000 / (2 ^ 64 - 50) := by
      norm_num [NormalizeStats, wrappedStats, u64sub]
    rw [hval]
    norm_num

/-- The `cpus` factor: `online_cpus`, else the per-cpu list length, else 1. -/
def cpusOf (s : Stats) : ℚ :=
  if s.cpuStats.onlineCpus ≠ 0 then (s.cpuStats.onlineCpus : ℚ)
  else if s.cpuStats.cpuUsage.percpuUsage.length ≠ 0 then
    (s.cpuStats.cpuUsage.percpuUsage.length : ℚ)
  else 1

/-- **C6, amended.**  Deltas are wrapping `uint64` differences, so
`cpuDelta < 0` is impossible and `sysDelta ≤ 0` happens exactly when the two
system counters are equal modulo `2^64`: cpu% is 0 when the wrapped system
delta is 0 and `(cpuDelta / sysDelta) * cpus * 100` otherwise, with `cpus` =
`online_cpus`, else the per-cpu list length, else 1. -/
theorem c6_cpu_pct_formula (id : String) (s : Stats) :
    (NormalizeStats id s).cpuPct =
      if u64sub s.cpuStats.systemCpuUsage s.preCpuStats.systemCpuUsage = 0
      then 0
      else
        (u64sub s.cpuStats.cpuUsage.totalUsage s.preCpuStats.totalUsage : ℚ) /
          (u64sub s.cpuStats.systemCpuUsage s.preCpuStats.systemCpuUsage : ℚ) *
          cpusOf s * 100 := by
  simp only [NormalizeStats, cpusOf]
  rcases Nat.eq_zero_or_pos
      (u64sub s.cpuStats.systemCpuUsage s.preCpuStats.systemCpuUsage) with h | h
  · simp [h]
  · have hpos : (0 : ℚ) <
        (u64sub s.cpuStats.systemCpuUsage s.preCpuStats.systemCpuUsage : ℚ) := by
      exact_mod_cast h
    have hne :
        u64sub s.cpuStats.systemCpuUsage s.preCpuStats.systemCpuUsage ≠ 0 :=
      Nat.pos_iff_ne_zero.mp h
    simp only [hpos, Nat.cast_nonneg, and_self, if_true, hne, if_false,
      if_neg hne]
    rcases Nat.eq_zero_or_pos s.cpuStats.onlineCpus with ho | ho
    · rcases Nat.eq_zero_or_pos s.cpuStats.cpuUsage.percpuUsage.length
          with hp | hp
      · simp [ho, hp]
      · have : s.cpuStats.cpuUsage.percpuUsage.length ≠ 0 :=
          Nat.pos_iff_ne_zero.mp hp
        simp [ho, this]
    · have : s.cpuStats.onlineCpus ≠ 0 := Nat.pos_iff_ne_zero.mp ho
      simp [this, Nat.cast_eq_zero]

/-! ## Repository rows and retention (`internal/db/repo.go`) -/

/-- A `models.HostMetric` / row of `host_metrics`. -/
structure HostMetric where
  ts : Int
  cpuPct : ℚ
  memUsedBytes : Int
  memTotalBytes : Int
  netRXBytes : Int
  netTXBytes : Int
  diskUsedBytes : Int
  diskTotalBytes : Int
  load1 : ℚ
  load5 : ℚ
  load15 : ℚ
  uptimeSec : Int
  deriving Repr, DecidableEq

/-- A `models.LogEntry` / row of `logs`.  The message is the raw byte string
(a Go string need not be valid UTF-8), timestamps are nanoseconds since the
Unix epoch. -/
structure LogEntry where
  ts : Int
  serviceId : String
  containerId : String
  level : String
  stream : String
  message : List Nat
  deriving Repr, DecidableEq

/-- The four tables `Repository.DeleteOlderThan` touches. -/
structure MetricsDB where
  hostMetrics : List HostMetric
  containerMetrics : List ContainerMetric
  logs : List LogEntry
  alerts : List Alert
  deriving Repr, DecidableEq

/-- `Repository.DeleteOlderThan`: `DELETE ... WHERE ts < ?` on the three
time-series tables and `DELETE FROM alerts WHERE started_ts < ? AND
status='recovered'` (the trailing WAL checkpoint and `PRAGMA optimize` do not
change table contents). -/
def DeleteOlderThan (db : MetricsDB) (cutoff : Int) : MetricsDB :=
  { hostMetrics := db.hostMetrics.filter (fun m => ¬ m.ts < cutoff)
    containerMetrics := db.containerMetrics.filter (fun m => ¬ m.ts < cutoff)
    logs := db.logs.filter (fun e => ¬ e.ts < cutoff)
    alerts := db.alerts.filter
      (fun a => ¬ (a.startedTs < cutoff ∧ a.status = "recovered")) }

/-- **C7.**  The retention delete removes exactly the rows with timestamp
strictly below the cutoff from host metrics, container metrics and logs,
exactly the recovered alerts started strictly before the cutoff, and leaves
every firing alert row (in order) unchanged. -/
theorem c7_retention_exact (db : MetricsDB) (cutoff : Int) :
    (∀ m, m ∈ (DeleteOlderThan db cutoff).hostMetrics ↔
      m ∈ db.hostMetrics ∧ ¬ m.ts < cutoff)
    ∧ (∀ m, m ∈ (DeleteOlderThan db cutoff).containerMetrics ↔
      m ∈ db.containerMetrics ∧ ¬ m.ts < cutoff)
    ∧ (∀ e, e ∈ (DeleteOlderThan db cutoff).logs ↔
      e ∈ db.logs ∧ ¬ e.ts < cutoff)
    ∧ (∀ a, a ∈ (DeleteOlderThan db cutoff).alerts ↔
      a ∈ db.alerts ∧ ¬ (a.startedTs < cutoff ∧ a.status = "recovered"))
    ∧ (DeleteOlderThan db cutoff).alerts.filter (fun a => a.status = "firing") =
      db.alerts.filter (fun a => a.status = "firing") := by
  refine ⟨?_, ?_, ?_, ?_, ?_⟩
  · intro m; simp [DeleteOlderThan, List.mem_filter]
  · intro m; simp [DeleteOlderThan, List.mem_filter]
  · intro e; simp [DeleteOlderThan, List.mem_filter]
  · intro a
    simp only [DeleteOlderThan, List.mem_filter, decide_eq_true_eq]
  · simp only [DeleteOlderThan]
    refine filter_filter_of_imp _ _ _ ?_
    intro a ha
    simp only [decide_eq_true_eq] at ha ⊢
    rintro ⟨-, hrec⟩
    rw [ha] at hrec
    exact absurd hrec (by decide)

/-- Witness for C7 on a one-row database: the firing alert survives a
cutoff later than its start. -/
theorem c7_retention_exact_witness :
    (DeleteOlderThan
        ⟨[], [], [], [⟨1, 5, "t", "firing", 10, none, "s", 1, "t"⟩]⟩
        100).alerts =
      [⟨1, 5, "t", "firing", 10, none, "s", 1, "t"⟩] := by
  have h := (c7_retention_exact
    ⟨[], [], [], [⟨1, 5, "t", "firing", 10, none, "s", 1, "t"⟩]⟩ 100).2.2.2.2
  simpa using h

/-! ## `Repository.UpsertServiceAndContainer` -/

/-- `models.Service` (the collector's input value; timestamps are supplied by
the repository). -/
structure Service where
  id : String
  name : String
  image : String
  labelsJson : String
  status : String
  deriving Repr, DecidableEq

/-- A row of the `services` table. -/
structure ServiceRow where
  id : String
  name : String
  image : String
  labelsJson : String
  firstSeenAt : Int
  lastSeenAt : Int
  status : String
  deriving Repr, DecidableEq

/-- The `services` insert: `ON CONFLICT(id) DO UPDATE SET name, image,
labels_json, last_seen_at, status` — `first_seen_at` is not in the update
list.  A fresh row gets `first_seen_at = last_seen_at = now`. -/
def upsertServiceRow : List ServiceRow → Service → Int → List ServiceRow
  | [], svc, now =>
      [⟨svc.id, svc.name, svc.image, svc.labelsJson, now, now, svc.status⟩]
  | r :: t, svc, now =>
      if r.id = svc.id then
        { r with name := svc.name, image := svc.image,
                 labelsJson := svc.labelsJson, lastSeenAt := now,
                 status := svc.status } :: t
      else r :: upsertServiceRow t svc now

/-- The `containers` insert: values `(id, service_id, name, status,
started_at, now, restart_count)`; `ON CONFLICT(id) DO UPDATE SET service_id,
name, status, last_seen_at, restart_count` — `started_at` is not updated.
The caller's `LastSeenAt` field is ignored; the row gets `now`. -/
def upsertContainerRow : List Container → Container → Int → List Container
  | [], c, now =>
      [⟨c.id, c.serviceId, c.name, c.status, c.startedAt, now, c.restartCount⟩]
  | r :: t, c, now =>
      if r.id = c.id then
        { r with serviceId := c.serviceId, name := c.name, status := c.status,
                 lastSeenAt := now, restartCount := c.restartCount } :: t
      else r :: upsertContainerRow t c now

/-- The two tables `UpsertServiceAndContainer` writes. -/
structure ServicesDB where
  services : List ServiceRow
  containers : List Container
  deriving Repr, DecidableEq

/-- `Repository.UpsertServiceAndContainer` (`now = time.Now().UTC()`). -/
def UpsertServiceAndContainer (db : ServicesDB) (svc : Service)
    (c : Container) (now : Int) : ServicesDB :=
  ⟨upsertServiceRow db.services svc now, upsertContainerRow db.containers c now⟩

/-- First-match lookup of a service row by primary key. -/
def findServiceRow : List ServiceRow → String → Option ServiceRow
  | [], _ => none
  | r :: t, id => if r.id = id then some r else findServiceRow t id

/-- First-match lookup of a container row by primary key. -/
def findContainerRow : List Container → String → Option Container
  | [], _ => none
  | r :: t, id => if r.id = id then some r else findContainerRow t id

theorem upsertServiceRow_find (rows : List ServiceRow) (svc : Service)
    (now : Int) (old : ServiceRow)
    (h : findServiceRow rows svc.id = some old) :
    findServiceRow (upsertServiceRow rows svc now) svc.id =
      some { old with name := svc.name, image := svc.image,
                      labelsJson := svc.labelsJson, lastSeenAt := now,
                      status := svc.status } := by
  induction rows with
  | nil => simp [findServiceRow] at h
  | cons r t ih =>
    by_cases hid : r.id = svc.id
    · rw [findServiceRow, if_pos hid] at h
      obtain rfl : r = old := Option.some.inj h
      simp [upsertServiceRow, hid, findServiceRow]
    · rw [findServiceRow, if_neg hid] at h
      simp [upsertServiceRow, hid, findServiceRow, ih h]

theorem upsertContainerRow_find (rows : List Container) (c : Container)
    (now : Int) :
    ∃ cr, findContainerRow (upsertContainerRow rows c now) c.id = some cr
      ∧ cr.lastSeenAt = now := by
  induction rows with
  | nil =>
    refine ⟨⟨c.id, c.serviceId, c.name, c.status, c.startedAt, now,
      c.restartCount⟩, ?_, rfl⟩
    simp [upsertContainerRow, findContainerRow]
  | cons r t ih =>
    by_cases hid : r.id = c.id
    · refine ⟨{ r with
          serviceId := c.serviceId
          name := c.name
          status := c.status
          lastSeenAt := now
          restartCount := c.restartCount }, ?_, rfl⟩
      simp [upsertContainerRow, hid, findContainerRow]
    · obtain ⟨cr, hcr, hts⟩ := ih
      refine ⟨cr, ?_, hts⟩
      simp [upsertContainerRow, hid, findContainerRow, hcr]

/-- **C8.**  Upserting a (service, container) pair over an existing service
row keeps the service's `first_seen_at` and stamps `last_seen_at = now` on
both the service row and the container row (every other updated service field
takes the incoming value). -/
theorem c8_upsert_preserves_first_seen (db : ServicesDB) (svc : Service)
    (c : Container) (now : Int) (old : ServiceRow)
    (h : findServiceRow db.services svc.id = some old) :
    (∃ r, findServiceRow (UpsertServiceAndContainer db svc c now).services
        svc.id = some r
      ∧ r.firstSeenAt = old.firstSeenAt ∧ r.lastSeenAt = now)
    ∧ ∃ cr, findContainerRow
        (UpsertServiceAndContainer db svc c now).containers c.id = some cr
      ∧ cr.lastSeenAt = now := by
  constructor
  · exact ⟨_, upsertServiceRow_find db.services svc now old h, rfl, rfl⟩
  · exact upsertContainerRow_find db.containers c now

/-- Witness for C8 on a one-service database. -/
theorem c8_upsert_preserves_first_seen_witness :
    ∃ r, findServiceRow
        (UpsertServiceAndContainer
          ⟨[⟨"svc", "n", "i", "{}", 11, 22, "running"⟩], []⟩
          ⟨"svc", "n2", "i2", "{}", "running"⟩
          ⟨"cid", "svc", "n2", "running", none, 0, 0⟩ 99).services "svc" =
      some r ∧ r.firstSeenAt = 11 ∧ r.lastSeenAt = 99 :=
  (c8_upsert_preserves_first_seen
    ⟨[⟨"svc", "n", "i", "{}", 11, 22, "running"⟩], []⟩
    ⟨"svc", "n2", "i2", "{}", "running"⟩
    ⟨"cid", "svc", "n2", "running", none, 0, 0⟩ 99
    ⟨"svc", "n", "i", "{}", 11, 22, "running"⟩ rfl).1

/-! ## The host sampler (`internal/collector/host.go`)

`Collect` reads six OS sources; each read either fails (`none`) or yields its
raw values.  The model takes the read results as inputs: `cpuRes` is
`readCPU()` (total and idle jiffies), `memRes` is `readMem()` (total and
available bytes), `netRes` is `readNetDev()` (rx and tx), `diskRes` is
`readDiskUsage("/")` (total and used), `loadRes` is `readLoadAvg()`, `upRes`
is `readUptimeSec()`.  The previous CPU sample `prevCPU` and the updated
sample are threaded explicitly.  Overflowing `uint64` differences wrap
(`u64sub`), and `deltaTotal > 0` is the Go `uint64` comparison. -/

/-- The collector's retained previous CPU sample. -/
structure CpuSample where
  total : Nat
  idle : Nat
  deriving Repr, DecidableEq

/-- `HostCollector.Collect`; `none` is the error return taken when `readCPU`
fails, which discards every other sub-sample. -/
def Collect (prevCPU : Option CpuSample) (cpuRes : Option (Nat × Nat))
    (memRes : Option (Nat × Nat)) (netRes : Option (Nat × Nat))
    (diskRes : Option (Nat × Nat)) (loadRes : Option (ℚ × ℚ × ℚ))
    (upRes : Option Int) (now : Int) : Option (HostMetric × CpuSample) :=
  match cpuRes with
  | none => none
  | some (total, idle) =>
    let cpuPct : ℚ :=
      match prevCPU with
      | some p =>
        let deltaTotal := u64sub total p.total
        let deltaIdle := u64sub idle p.idle
        if 0 < deltaTotal then
          100 * (1 - (deltaIdle : ℚ) / (deltaTotal : ℚ))
        else 0
      | none => 0
    let m : HostMetric :=
      ⟨now, cpuPct, 0, 0, 0, 0, 0, 0, 0, 0, 0, 0⟩
    let m : HostMetric :=
      match memRes with
      | some (memTotal, memAvail) =>
        if 0 < memTotal then
          { m with memTotalBytes := i64ofU64 memTotal,
                   memUsedBytes := i64ofU64 (u64sub memTotal memAvail) }
        else m
      | none => m
    let m : HostMetric :=
      match netRes with
      | some (rx, tx) =>
          { m with netRXBytes := i64ofU64 rx, netTXBytes := i64ofU64 tx }
      | none => m
    let m : HostMetric :=
      match diskRes with
      | some (totalDisk, usedDisk) =>
          { m with diskTotalBytes := i64ofU64 totalDisk,
                   diskUsedBytes := i64ofU64 usedDisk }
      | none => m
    let m : HostMetric :=
      match loadRes with
      | some (l1, l5, l15) => { m with load1 := l1, load5 := l5, load15 := l15 }
      | none => m
    let m : HostMetric :=
      match upRes with
      | some up => { m with uptimeSec := up }
      | none => m
    some (m, ⟨total, idle⟩)

/-- **C9, counterexample.**  A failed CPU read makes `Collect` return the
error path and no metric at all, although the memory, network, disk, load and
uptime reads all succeeded — their fields are discarded, contradicting the
claim that a failure of any one sub-sample keeps the others' fields. -/
theorem c9_cpu_failure_discards_all :
    Collect none none (some (2048, 1024)) (some (5, 7)) (some (100, 40))
      (some (1, 2, 3)) (some 99) 0 = none := rfl

/-- **C9, amended.**  Whenever the CPU read succeeds, `Collect` returns a
metric, and a failure of any of the other five sub-samples does not discard
the fields of the rest: every successfully read sub-sample's fields appear in
the returned metric regardless of the other reads' outcomes. -/
theorem c9_subsample_independence (prevCPU : Option CpuSample)
    (total idle : Nat) (memRes netRes diskRes : Option (Nat × Nat))
    (loadRes : Option (ℚ × ℚ × ℚ)) (upRes : Option Int) (now : Int) :
    ∃ m cs,
      Collect prevCPU (some (total, idle)) memRes netRes diskRes loadRes upRes
          now = some (m, cs)
      ∧ m.ts = now
      ∧ (∀ t a, memRes = some (t, a) → 0 < t →
          m.memTotalBytes = i64ofU64 t
          ∧ m.memUsedBytes = i64ofU64 (u64sub t a))
      ∧ (∀ rx tx, netRes = some (rx, tx) →
          m.netRXBytes = i64ofU64 rx ∧ m.netTXBytes = i64ofU64 tx)
      ∧ (∀ t u, diskRes = some (t, u) →
          m.diskTotalBytes = i64ofU64 t ∧ m.diskUsedBytes = i64ofU64 u)
      ∧ (∀ a b c, loadRes = some (a, b, c) →
          m.load1 = a ∧ m.load5 = b ∧ m.load15 = c)
      ∧ (∀ u, upRes = some u → m.uptimeSec = u)
      ∧ cs = ⟨total, idle⟩ := by
  rcases memRes with _ | ⟨t, a⟩ <;>
    rcases netRes with _ | ⟨rx, tx⟩ <;>
    rcases diskRes with _ | ⟨dt, du⟩ <;>
    rcases loadRes with _ | ⟨l1, l5, l15⟩ <;>
    rcases upRes with _ | u
  all_goals refine ⟨_, _, rfl, ?_, ?_, ?_, ?_, ?_, ?_, rfl⟩
  all_goals intros
  all_goals (first | rfl | simp_all [apply_ite HostMetric.ts])

/-- Witness for C9: CPU ok, memory and network ok, disk/load/uptime reads
failed; the memory and network fields survive. -/
theorem c9_subsample_independence_witness :
    ∃ m cs,
      Collect none (some (10, 5)) (some (2048, 1024)) (some (3, 4)) none none
          none 7 = some (m, cs)
      ∧ m.memTotalBytes = 2048 ∧ m.netRXBytes = 3 := by
  obtain ⟨m, cs, heq, -, hmem, hnet, -, -, -, -⟩ :=
    c9_subsample_independence none 10 5 (some (2048, 1024)) (some (3, 4))
      none none none 7
  refine ⟨m, cs, heq, ?_, (hnet 3 4 rfl).1⟩
  have h := (hmem 2048 1024 rfl (by norm_num)).1
  rw [h]
  rfl

/-! ## Bytes and UTF-8 (the Go standard library used by `internal/logs`)

Go strings are byte slices; we model them as `List Nat` (each element a byte
value `< 256`; the functions below are total on all of `Nat` and only ever
compare bytes against constants).  `decodeRune` is `unicode/utf8.DecodeRune`
with its accept ranges (rejecting overlong encodings, surrogates and values
above `U+10FFFF`); an invalid or truncated sequence decodes to
`(RuneError, 1)` = `(0xFFFD, 1)`. -/

/-- A UTF-8 continuation byte (`0x80..0xBF`). -/
def contByte (b : Nat) : Bool := 0x80 ≤ b ∧ b ≤ 0xBF

/-- `utf8.acceptRanges` for the second byte of a 3-byte sequence. -/
def accept3 (b0 b1 : Nat) : Bool :=
  if b0 = 0xE0 then 0xA0 ≤ b1 ∧ b1 ≤ 0xBF
  else if b0 = 0xED then 0x80 ≤ b1 ∧ b1 ≤ 0x9F
  else contByte b1

/-- `utf8.acceptRanges` for the second byte of a 4-byte sequence. -/
def accept4 (b0 b1 : Nat) : Bool :=
  if b0 = 0xF0 then 0x90 ≤ b1 ∧ b1 ≤ 0xBF
  else if b0 = 0xF4 then 0x80 ≤ b1 ∧ b1 ≤ 0x8F
  else contByte b1

/-- `utf8.DecodeRune`: the decoded rune and its byte width.  Empty input
gives `(RuneError, 0)`; an invalid byte or truncated sequence gives
`(RuneError, 1)`. -/
def decodeRune : List Nat → Nat × Nat
  | [] => (0xFFFD, 0)
  | b0 :: rest =>
    if b0 < 0x80 then (b0, 1)
    else if 0xC2 ≤ b0 ∧ b0 ≤ 0xDF then
      match rest with
      | b1 :: _ =>
        if contByte b1 then ((b0 - 0xC0) * 64 + (b1 - 0x80), 2)
        else (0xFFFD, 1)
      | [] => (0xFFFD, 1)
    else if 0xE0 ≤ b0 ∧ b0 ≤ 0xEF then
      match rest with
      | b1 :: b2 :: _ =>
        if accept3 b0 b1 ∧ contByte b2 then
          ((b0 - 0xE0) * 4096 + (b1 - 0x80) * 64 + (b2 - 0x80), 3)
        else (0xFFFD, 1)
      | _ => (0xFFFD, 1)
    else if 0xF0 ≤ b0 ∧ b0 ≤ 0xF4 then
      match rest with
      | b1 :: b2 :: b3 :: _ =>
        if accept4 b0 b1 ∧ contByte b2 ∧ contByte b3 then
          ((b0 - 0xF0) * 262144 + (b1 - 0x80) * 4096 + (b2 - 0x80) * 64 +
            (b3 - 0x80), 4)
        else (0xFFFD, 1)
      | _ => (0xFFFD, 1)
    else (0xFFFD, 1)

theorem one_le_decodeRune_snd (b0 : Nat) (rest : List Nat) :
    1 ≤ (decodeRune (b0 :: rest)).2 := by
  rcases rest with _ | ⟨b1, _ | ⟨b2, _ | ⟨b3, r⟩⟩⟩ <;>
    · simp only [decodeRune]
      repeat' split
      all_goals norm_num

/-- `utf8.Valid` (fuelled: each step consumes at least one byte, so
`fuel ≥ length` reproduces the Go loop exactly; the fuel makes the recursion
structural and hence kernel-evaluable): the greedy decode consumes the whole
string through valid sequences, a one-byte step being valid only for
ASCII. -/
def validUTF8F : Nat → List Nat → Bool
  | _, [] => true
  | 0, _ :: _ => false
  | fuel + 1, b0 :: rest =>
    let n := (decodeRune (b0 :: rest)).2
    if 2 ≤ n then validUTF8F fuel ((b0 :: rest).drop n)
    else if b0 < 0x80 then validUTF8F fuel rest
    else false

/-- `utf8.Valid`. -/
def validUTF8 (l : List Nat) : Bool := validUTF8F l.length l

/-- `bytes.ToValidUTF8(s, "?")` (fuelled, see `validUTF8F`): copy ASCII
bytes and valid multi-byte sequences; replace each maximal run of invalid
bytes by a single `'?'` (tracked by the `invalid` flag). -/
def toValidUTF8F : Nat → Bool → List Nat → List Nat
  | _, _, [] => []
  | 0, _, _ :: _ => []
  | fuel + 1, invalid, c :: rest =>
    if c < 0x80 then c :: toValidUTF8F fuel false rest
    else
      let n := (decodeRune (c :: rest)).2
      if n = 1 then
        if invalid then toValidUTF8F fuel true rest
        else 63 :: toValidUTF8F fuel true rest
      else
        (c :: rest).take n ++ toValidUTF8F fuel false ((c :: rest).drop n)

/-- `bytes.ToValidUTF8` with replacement `"?"`, as used by
`sanitizeMessage`. -/
def toValidUTF8 (l : List Nat) : List Nat := toValidUTF8F l.length false l

/-- `unicode.IsSpace`: the Unicode White_Space property. -/
def isSpaceRune (r : Nat) : Bool :=
  r = 9 ∨ r = 10 ∨ r = 11 ∨ r = 12 ∨ r = 13 ∨ r = 32 ∨ r = 0x85 ∨ r = 0xA0 ∨
  r = 0x1680 ∨ (0x2000 ≤ r ∧ r ≤ 0x200A) ∨ r = 0x2028 ∨ r = 0x2029 ∨
  r = 0x202F ∨ r = 0x205F ∨ r = 0x3000

/-- The `asciiSpace` table of package `strings`:
`'\t' '\n' '\v' '\f' '\r' ' '`. -/
def asciiSpace (b : Nat) : Bool :=
  b = 9 ∨ b = 10 ∨ b = 11 ∨ b = 12 ∨ b = 13 ∨ b = 32

/-- `strings.TrimLeftFunc(s, unicode.IsSpace)` (fuelled, see `validUTF8F`):
drop leading space runes.  An invalid byte decodes to `RuneError`, which is
not a space and stops the scan. -/
def trimLeftFuncF : Nat → List Nat → List Nat
  | _, [] => []
  | 0, l => l
  | fuel + 1, b0 :: rest =>
    let p := decodeRune (b0 :: rest)
    if isSpaceRune p.1 then trimLeftFuncF fuel ((b0 :: rest).drop p.2)
    else b0 :: rest

/-- `strings.TrimLeftFunc(s, unicode.IsSpace)`. -/
def trimLeftFunc (l : List Nat) : List Nat := trimLeftFuncF l.length l

/-- Decode the last `j` bytes of `l` and accept only a rune that spans
exactly those `j` bytes (`DecodeLastRune`'s `start+size != end` check). -/
def checkLast (l : List Nat) (j : Nat) : Nat × Nat :=
  let p := decodeRune (l.drop (l.length - j))
  if p.2 = j then p else (0xFFFD, 1)

/-- Whether the byte `j` positions from the end of `l` can start a rune
(`utf8.RuneStart`: not a continuation byte). -/
def runeStartAt (l : List Nat) (j : Nat) : Bool :=
  !contByte (l.getD (l.length - j) 0)

/-- `utf8.DecodeLastRune`: an empty string gives `(RuneError, 0)`; an ASCII
last byte decodes alone; otherwise scan back (positions `end-2`, `end-3`,
`end-4`) for a rune-start byte and decode from there; anything else is
`(RuneError, 1)`.  The Go backwards loop is unrolled into an if-chain; the
`length = j` cases reproduce `start` clamped to 0 when the scan ran off the
front of the string, and for `length ≥ 5` with no start byte in reach the
decoded width can never equal the 5-byte span, so the result is
`(RuneError, 1)` directly. -/
def decodeLastRune (l : List Nat) : Nat × Nat :=
  if l.length = 0 then (0xFFFD, 0)
  else
    if l.getD (l.length - 1) 0 < 0x80 then (l.getD (l.length - 1) 0, 1)
    else if l.length = 1 then checkLast l 1
    else if runeStartAt l 2 then checkLast l 2
    else if l.length = 2 then checkLast l 2
    else if runeStartAt l 3 then checkLast l 3
    else if l.length = 3 then checkLast l 3
    else if runeStartAt l 4 then checkLast l 4
    else if l.length = 4 then checkLast l 4
    else (0xFFFD, 1)

theorem one_le_checkLast_snd (l : List Nat) (j : Nat) (hj : 1 ≤ j) :
    1 ≤ (checkLast l j).2 := by
  simp only [checkLast]
  split
  · next h => simpa [h] using hj
  · norm_num

theorem one_le_decodeLastRune_snd (b0 : Nat) (rest : List Nat) :
    1 ≤ (decodeLastRune (b0 :: rest)).2 := by
  unfold decodeLastRune
  rw [if_neg (show ¬ (b0 :: rest).length = 0 from by simp)]
  repeat' split
  all_goals first
    | exact one_le_checkLast_snd _ _ (by norm_num)
    | norm_num

/-- `strings.TrimRightFunc(s, unicode.IsSpace)` (fuelled, see
`validUTF8F`). -/
def trimRightFuncF : Nat → List Nat → List Nat
  | _, [] => []
  | 0, l => l
  | fuel + 1, b0 :: rest =>
    let p := decodeLastRune (b0 :: rest)
    if isSpaceRune p.1 then
      trimRightFuncF fuel ((b0 :: rest).take (rest.length + 1 - p.2))
    else b0 :: rest

/-- `strings.TrimRightFunc(s, unicode.IsSpace)`. -/
def trimRightFunc (l : List Nat) : List Nat := trimRightFuncF l.length l

/-- The right-scan loop of `strings.TrimSpace` (fuelled, see `validUTF8F`):
strip trailing ASCII spaces byte-wise; on meeting a non-ASCII byte fall back
to `TrimRightFunc`. -/
def goTrimRightF : Nat → List Nat → List Nat
  | _, [] => []
  | 0, l => l
  | fuel + 1, b0 :: rest =>
    match (b0 :: rest).getLast? with
    | none => []
    | some c =>
      if 0x80 ≤ c then trimRightFunc (b0 :: rest)
      else if asciiSpace c then goTrimRightF fuel (b0 :: rest).dropLast
      else b0 :: rest

/-- The right-scan loop of `strings.TrimSpace`. -/
def goTrimRight (l : List Nat) : List Nat := goTrimRightF l.length l

/-- `strings.TrimSpace`: strip leading ASCII spaces byte-wise; on meeting a
non-ASCII byte fall back to `TrimFunc` (= `TrimRightFunc ∘ TrimLeftFunc`)
over the rest; after the left scan stops, run the right scan. -/
def goTrimSpace : List Nat → List Nat
  | [] => []
  | c :: rest =>
    if 0x80 ≤ c then trimRightFunc (trimLeftFunc (c :: rest))
    else if asciiSpace c then goTrimSpace rest
    else goTrimRight (c :: rest)

/-- `sanitizeMessage` from `parser.go`: trim, strip NUL bytes
(`strings.ReplaceAll(msg, "\x00", "")`), replace invalid UTF-8 with `?`,
re-trim, clamp to 4000 **bytes** (`len(msg) > 4000`, `msg[:4000]`). -/
def sanitizeMessage (msg : List Nat) : List Nat :=
  let m1 := goTrimSpace msg
  let m2 := m1.filter (fun b => b ≠ 0)
  let m3 := goTrimSpace (toValidUTF8 m2)
  if 4000 < m3.length then m3.take 4000 else m3

/-- "No leading or trailing whitespace": neither the first nor the last
decoded rune is a space (an empty string qualifies; `RuneError` is not a
space). -/
def noEdgeSpace (l : List Nat) : Bool :=
  !isSpaceRune (decodeRune l).1 && !isSpaceRune (decodeLastRune l).1

/-! ### Fuel irrelevance and one-step unfolding

Any fuel at least the list length gives the same value, so the fuelled
functions satisfy the original recurrences. -/

theorem validUTF8F_irrel :
    ∀ (f₁ : Nat) (l : List Nat) (f₂ : Nat), l.length ≤ f₁ → l.length ≤ f₂ →
      validUTF8F f₁ l = validUTF8F f₂ l := by
  intro f₁
  induction f₁ with
  | zero =>
    intro l f₂ h1 h2
    have h0 : l = [] := List.length_eq_zero.mp (Nat.le_zero.mp h1)
    subst h0
    cases f₂ <;> rfl
  | succ f ih =>
    intro l f₂ h1 h2
    cases l with
    | nil => cases f₂ <;> rfl
    | cons b0 rest =>
      cases f₂ with
      | zero => simp at h2
      | succ f₂ =>
        simp only [validUTF8F]
        by_cases hn : 2 ≤ (decodeRune (b0 :: rest)).2
        · simp only [hn, if_true]
          have hw := one_le_decodeRune_snd b0 rest
          simp only [List.length_cons] at h1 h2
          exact ih _ _ (by simp; omega) (by simp; omega)
        · simp only [hn, if_false]
          by_cases hb : b0 < 0x80
          · simp only [hb, if_true]
            simp only [List.length_cons] at h1 h2
            exact ih _ _ (by omega) (by omega)
          · simp [hb]

theorem toValidUTF8F_irrel :
    ∀ (f₁ : Nat) (l : List Nat) (f₂ : Nat) (inv : Bool),
      l.length ≤ f₁ → l.length ≤ f₂ →
      toValidUTF8F f₁ inv l = toValidUTF8F f₂ inv l := by
  intro f₁
  induction f₁ with
  | zero =>
    intro l f₂ inv h1 h2
    have h0 : l = [] := List.length_eq_zero.mp (Nat.le_zero.mp h1)
    subst h0
    cases f₂ <;> rfl
  | succ f ih =>
    intro l f₂ inv h1 h2
    cases l with
    | nil => cases f₂ <;> rfl
    | cons c rest =>
      cases f₂ with
      | zero => simp at h2
      | succ f₂ =>
        simp only [toValidUTF8F]
        simp only [List.length_cons] at h1 h2
        have hw := one_le_decodeRune_snd c rest
        by_cases hc : c < 0x80
        · have h := ih rest f₂ false (by omega) (by omega)
          simp [hc, h]
        · by_cases h1' : (decodeRune (c :: rest)).2 = 1
          · have h := ih rest f₂ true (by omega) (by omega)
            cases inv <;> simp [hc, h1', h]
          · have h := ih ((c :: rest).drop (decodeRune (c :: rest)).2) f₂ false
              (by simp; omega) (by simp; omega)
            simp [hc, h1', h]

theorem trimLeftFuncF_irrel :
    ∀ (f₁ : Nat) (l : List Nat) (f₂ : Nat), l.length ≤ f₁ → l.length ≤ f₂ →
      trimLeftFuncF f₁ l = trimLeftFuncF f₂ l := by
  intro f₁
  induction f₁ with
  | zero =>
    intro l f₂ h1 h2
    have h0 : l = [] := List.length_eq_zero.mp (Nat.le_zero.mp h1)
    subst h0
    cases f₂ <;> rfl
  | succ f ih =>
    intro l f₂ h1 h2
    cases l with
    | nil => cases f₂ <;> rfl
    | cons b0 rest =>
      cases f₂ with
      | zero => simp at h2
      | succ f₂ =>
        simp only [trimLeftFuncF]
        by_cases hs : isSpaceRune (decodeRune (b0 :: rest)).1
        · simp only [hs, if_true]
          have hw := one_le_decodeRune_snd b0 rest
          simp only [List.length_cons] at h1 h2
          exact ih _ _ (by simp; omega) (by simp; omega)
        · simp [hs]

theorem trimRightFuncF_irrel :
    ∀ (f₁ : Nat) (l : List Nat) (f₂ : Nat), l.length ≤ f₁ → l.length ≤ f₂ →
      trimRightFuncF f₁ l = trimRightFuncF f₂ l := by
  intro f₁
  induction f₁ with
  | zero =>
    intro l f₂ h1 h2
    have h0 : l = [] := List.length_eq_zero.mp (Nat.le_zero.mp h1)
    subst h0
    cases f₂ <;> rfl
  | succ f ih =>
    intro l f₂ h1 h2
    cases l with
    | nil => cases f₂ <;> rfl
    | cons b0 rest =>
      cases f₂ with
      | zero => simp at h2
      | succ f₂ =>
        simp only [trimRightFuncF]
        by_cases hs : isSpaceRune (decodeLastRune (b0 :: rest)).1
        · simp only [hs, if_true]
          have hw := one_le_decodeLastRune_snd b0 rest
          simp only [List.length_cons] at h1 h2
          exact ih _ _ (by simp; omega) (by simp; omega)
        · simp [hs]

theorem goTrimRightF_irrel :
    ∀ (f₁ : Nat) (l : List Nat) (f₂ : Nat), l.length ≤ f₁ → l.length ≤ f₂ →
      goTrimRightF f₁ l = goTrimRightF f₂ l := by
  intro f₁
  induction f₁ with
  | zero =>
    intro l f₂ h1 h2
    have h0 : l = [] := List.length_eq_zero.mp (Nat.le_zero.mp h1)
    subst h0
    cases f₂ <;> rfl
  | succ f ih =>
    intro l f₂ h1 h2
    cases l with
    | nil => cases f₂ <;> rfl
    | cons b0 rest =>
      cases f₂ with
      | zero => simp at h2
      | succ f₂ =>
        simp only [goTrimRightF]
        cases hlast : (b0 :: rest).getLast? with
        | none => rfl
        | some c =>
          simp only []
          by_cases hc : 0x80 ≤ c
          · simp [hc]
          · simp only [hc, if_false]
            by_cases hsp : asciiSpace c
            · simp only [hsp, if_true]
              simp only [List.length_cons] at h1 h2
              exact ih _ _ (by simp; omega) (by simp; omega)
            · simp [hsp]

theorem validUTF8_nil : validUTF8 [] = true := rfl

theorem validUTF8_cons (b0 : Nat) (rest : List Nat) :
    validUTF8 (b0 :: rest) =
      if 2 ≤ (decodeRune (b0 :: rest)).2 then
        validUTF8 ((b0 :: rest).drop (decodeRune (b0 :: rest)).2)
      else if b0 < 0x80 then validUTF8 rest else false := by
  show validUTF8F ((b0 :: rest).length) (b0 :: rest) = _
  simp only [List.length_cons, validUTF8F]
  by_cases hn : 2 ≤ (decodeRune (b0 :: rest)).2
  · simp only [hn, if_true]
    have hw := one_le_decodeRune_snd b0 rest
    exact validUTF8F_irrel _ _ _ (by simp; omega) le_rfl
  · simp only [hn, if_false]
    by_cases hb : b0 < 0x80 <;> simp [hb, validUTF8]

/-! ### UTF-8 structure lemmas

A valid string is a concatenation of rune chunks; `runeChunk` lists the byte
shapes `decodeRune` accepts in one step. -/

/-- The byte shapes of a single encoded rune. -/
def runeChunk : List Nat → Bool
  | [b0] => b0 < 0x80
  | [b0, b1] => (0xC2 ≤ b0 ∧ b0 ≤ 0xDF) ∧ contByte b1
  | [b0, b1, b2] => (0xE0 ≤ b0 ∧ b0 ≤ 0xEF) ∧ accept3 b0 b1 ∧ contByte b2
  | [b0, b1, b2, b3] =>
      (0xF0 ≤ b0 ∧ b0 ≤ 0xF4) ∧ accept4 b0 b1 ∧ contByte b2 ∧ contByte b3
  | _ => false

theorem decodeRune_chunk_append (c t : List Nat) (h : runeChunk c = true) :
    decodeRune (c ++ t) = ((decodeRune c).1, c.length) := by
  match c with
  | [] => simp [runeChunk] at h
  | [b0] =>
    simp only [runeChunk, decide_eq_true_eq] at h
    simp [decodeRune, h]
  | [b0, b1] =>
    simp only [runeChunk, Bool.and_eq_true, decide_eq_true_eq] at h
    obtain ⟨⟨h1, h2⟩, h3⟩ := h
    have h0 : ¬ b0 < 0x80 := by omega
    simp [decodeRune, h0, h1, h2, h3]
  | [b0, b1, b2] =>
    simp only [runeChunk, Bool.and_eq_true, decide_eq_true_eq] at h
    obtain ⟨⟨h1, h2⟩, h3, h4⟩ := h
    have h0 : ¬ b0 < 0x80 := by omega
    have hn2 : ¬ (0xC2 ≤ b0 ∧ b0 ≤ 0xDF) := by omega
    simp [decodeRune, h0, hn2, h1, h2, h3, h4]
  | [b0, b1, b2, b3] =>
    simp only [runeChunk, Bool.and_eq_true, decide_eq_true_eq] at h
    obtain ⟨⟨h1, h2⟩, h3, h4, h5⟩ := h
    have h0 : ¬ b0 < 0x80 := by omega
    have hn2 : ¬ (0xC2 ≤ b0 ∧ b0 ≤ 0xDF) := by omega
    have hn3 : ¬ (0xE0 ≤ b0 ∧ b0 ≤ 0xEF) := by omega
    simp [decodeRune, h0, hn2, hn3, h1, h2, h3, h4, h5]
  | b0 :: b1 :: b2 :: b3 :: b4 :: r => simp [runeChunk] at h

theorem decodeRune_chunk_snd (c : List Nat) (h : runeChunk c = true) :
    (decodeRune c).2 = c.length := by
  have := decodeRune_chunk_append c [] h
  rw [List.append_nil] at this
  rw [this]

theorem runeChunk_take_of_two_le (l : List Nat)
    (h : 2 ≤ (decodeRune l).2) :
    runeChunk (l.take (decodeRune l).2) = true := by
  match l with
  | [] => simp [decodeRune] at h
  | [b0] =>
    simp only [decodeRune] at h
    split_ifs at h <;> simp_all
  | b0 :: b1 :: rest =>
    by_cases h0 : b0 < 0x80
    · simp [decodeRune, h0] at h
    by_cases h2 : 0xC2 ≤ b0 ∧ b0 ≤ 0xDF
    · by_cases hc : contByte b1
      · simp [decodeRune, h0, h2, hc, runeChunk]
      · simp [decodeRune, h0, h2, hc] at h
    by_cases h3 : 0xE0 ≤ b0 ∧ b0 ≤ 0xEF
    · match rest with
      | [] => simp [decodeRune, h0, h2, h3] at h
      | b2 :: rest' =>
        by_cases hc : accept3 b0 b1 ∧ contByte b2
        · simp only [Bool.and_eq_true] at hc
          simp [decodeRune, h0, h2, h3, hc, runeChunk]
        · simp only [Bool.and_eq_true] at hc
          simp [decodeRune, h0, h2, h3, hc] at h
    by_cases h4 : 0xF0 ≤ b0 ∧ b0 ≤ 0xF4
    · match rest with
      | [] => simp [decodeRune, h0, h2, h3, h4] at h
      | [b2] => simp [decodeRune, h0, h2, h3, h4] at h
      | b2 :: b3 :: rest' =>
        by_cases hc : accept4 b0 b1 ∧ contByte b2 ∧ contByte b3
        · simp only [Bool.and_eq_true] at hc
          simp [decodeRune, h0, h2, h3, h4, hc, runeChunk]
        · simp only [Bool.and_eq_true] at hc
          simp [decodeRune, h0, h2, h3, h4, hc] at h
    · simp [decodeRune, h0, h2, h3, h4] at h

theorem validUTF8_chunk_append (c t : List Nat) (h : runeChunk c = true) :
    validUTF8 (c ++ t) = validUTF8 t := by
  have hd := decodeRune_chunk_append c t h
  match c with
  | [] => simp [runeChunk] at h
  | [b0] =>
    simp only [runeChunk, decide_eq_true_eq] at h
    simp only [List.cons_append, List.nil_append] at hd ⊢
    rw [validUTF8_cons, hd]
    simp [h]
  | [b0, b1] =>
    simp only [List.cons_append, List.nil_append] at hd ⊢
    rw [validUTF8_cons, hd]
    simp
  | [b0, b1, b2] =>
    simp only [List.cons_append, List.nil_append] at hd ⊢
    rw [validUTF8_cons, hd]
    simp
  | [b0, b1, b2, b3] =>
    simp only [List.cons_append, List.nil_append] at hd ⊢
    rw [validUTF8_cons, hd]
    simp
  | b0 :: b1 :: b2 :: b3 :: b4 :: r => simp [runeChunk] at h

theorem validUTF8_cons_ascii (b : Nat) (t : List Nat) (hb : b < 0x80) :
    validUTF8 (b :: t) = validUTF8 t := by
  have hc : runeChunk [b] = true := by simp [runeChunk, hb]
  simpa using validUTF8_chunk_append [b] t hc

theorem validUTF8_decomp_first (l : List Nat) (h : validUTF8 l = true)
    (hne : l ≠ []) :
    ∃ c t, l = c ++ t ∧ runeChunk c = true ∧ validUTF8 t = true := by
  match l with
  | b0 :: rest =>
    rw [validUTF8_cons] at h
    by_cases h2 : 2 ≤ (decodeRune (b0 :: rest)).2
    · simp only [h2, if_true] at h
      exact ⟨(b0 :: rest).take (decodeRune (b0 :: rest)).2,
        (b0 :: rest).drop (decodeRune (b0 :: rest)).2,
        (List.take_append_drop _ _).symm,
        runeChunk_take_of_two_le _ h2, h⟩
    · simp only [h2, if_false] at h
      by_cases hb : b0 < 0x80
      · simp only [hb, if_true] at h
        exact ⟨[b0], rest, rfl, by simp [runeChunk, hb], h⟩
      · simp only [hb, if_false] at h
        cases h

theorem validUTF8_toValidUTF8F :
    ∀ (fuel : Nat) (l : List Nat), l.length ≤ fuel → ∀ inv,
      validUTF8 (toValidUTF8F fuel inv l) = true := by
  intro fuel
  induction fuel with
  | zero =>
    intro l hl inv
    have h0 : l = [] := List.length_eq_zero.mp (Nat.le_zero.mp hl)
    subst h0
    rfl
  | succ f ih =>
    intro l hl inv
    cases l with
    | nil => rfl
    | cons c rest =>
      simp only [toValidUTF8F]
      simp only [List.length_cons] at hl
      by_cases hc : c < 0x80
      · simp only [hc, if_true]
        rw [validUTF8_cons_ascii _ _ hc]
        exact ih rest (by omega) false
      · simp only [hc, if_false]
        by_cases h1 : (decodeRune (c :: rest)).2 = 1
        · simp only [h1, if_true]
          cases inv with
          | true =>
            simp only [if_true]
            exact ih rest (by omega) true
          | false =>
            rw [if_neg (by simp), validUTF8_cons_ascii 63 _ (by norm_num)]
            exact ih rest (by omega) true
        · simp only [h1, if_false]
          have h2 : 2 ≤ (decodeRune (c :: rest)).2 := by
            have := one_le_decodeRune_snd c rest
            omega
          rw [validUTF8_chunk_append _ _ (runeChunk_take_of_two_le _ h2)]
          exact ih _ (by simp; omega) false

theorem validUTF8_toValidUTF8 (l : List Nat) :
    validUTF8 (toValidUTF8 l) = true :=
  validUTF8_toValidUTF8F l.length l le_rfl false

theorem mem_toValidUTF8F :
    ∀ (fuel : Nat) (l : List Nat) (inv : Bool) (b : Nat),
      b ∈ toValidUTF8F fuel inv l → b ∈ l ∨ b = 63 := by
  intro fuel
  induction fuel with
  | zero =>
    intro l inv b hb
    cases l <;> simp [toValidUTF8F] at hb
  | succ f ih =>
    intro l inv b hb
    cases l with
    | nil => simp [toValidUTF8F] at hb
    | cons c rest =>
      simp only [toValidUTF8F] at hb
      by_cases hc : c < 0x80
      · simp only [hc, if_true, List.mem_cons] at hb
        rcases hb with hb | hb
        · exact Or.inl (by simp [hb])
        · rcases ih rest false b hb with h | h
          · exact Or.inl (by simp [h])
          · exact Or.inr h
      · simp only [hc, if_false] at hb
        by_cases h1 : (decodeRune (c :: rest)).2 = 1
        · simp only [h1, if_true] at hb
          cases inv with
          | true =>
            simp only [if_true] at hb
            rcases ih rest true b hb with h | h
            · exact Or.inl (by simp [h])
            · exact Or.inr h
          | false =>
            rw [if_neg (by simp)] at hb
            simp only [List.mem_cons] at hb
            rcases hb with hb | hb
            · exact Or.inr hb
            · rcases ih rest true b hb with h | h
              · exact Or.inl (by simp [h])
              · exact Or.inr h
        · simp only [h1, if_false, List.mem_append] at hb
          rcases hb with hb | hb
          · exact Or.inl (List.take_subset _ _ hb)
          · rcases ih _ false b hb with h | h
            · exact Or.inl (List.drop_subset _ _ h)
            · exact Or.inr h

theorem mem_toValidUTF8 (l : List Nat) (b : Nat) (hb : b ∈ toValidUTF8 l) :
    b ∈ l ∨ b = 63 :=
  mem_toValidUTF8F l.length l false b hb

theorem trimLeftFuncF_eq_drop :
    ∀ (fuel : Nat) (l : List Nat), ∃ i, trimLeftFuncF fuel l = l.drop i := by
  intro fuel
  induction fuel with
  | zero =>
    intro l
    cases l with
    | nil => exact ⟨0, rfl⟩
    | cons b0 rest => exact ⟨0, rfl⟩
  | succ f ih =>
    intro l
    cases l with
    | nil => exact ⟨0, rfl⟩
    | cons b0 rest =>
      simp only [trimLeftFuncF]
      by_cases hs : isSpaceRune (decodeRune (b0 :: rest)).1
      · simp only [hs, if_true]
        obtain ⟨i, hi⟩ := ih ((b0 :: rest).drop (decodeRune (b0 :: rest)).2)
        exact ⟨i + (decodeRune (b0 :: rest)).2,
          by rw [hi, List.drop_drop, Nat.add_comm]⟩
      · simp only [hs, if_false]
        exact ⟨0, rfl⟩

theorem trimRightFuncF_eq_take :
    ∀ (fuel : Nat) (l : List Nat), ∃ i, trimRightFuncF fuel l = l.take i := by
  intro fuel
  induction fuel with
  | zero =>
    intro l
    cases l with
    | nil => exact ⟨0, rfl⟩
    | cons b0 rest => exact ⟨(b0 :: rest).length, (List.take_length _).symm⟩
  | succ f ih =>
    intro l
    cases l with
    | nil => exact ⟨0, rfl⟩
    | cons b0 rest =>
      simp only [trimRightFuncF]
      by_cases hs : isSpaceRune (decodeLastRune (b0 :: rest)).1
      · simp only [hs, if_true]
        obtain ⟨i, hi⟩ := ih ((b0 :: rest).take (rest.length + 1 - (decodeLastRune (b0 :: rest)).2))
        refine ⟨min i (rest.length + 1 - (decodeLastRune (b0 :: rest)).2), ?_⟩
        rw [hi, List.take_take]
      · simp only [hs, if_false]
        exact ⟨rest.length + 1, by simp⟩

theorem goTrimRightF_eq_take :
    ∀ (fuel : Nat) (l : List Nat), ∃ i, goTrimRightF fuel l = l.take i := by
  intro fuel
  induction fuel with
  | zero =>
    intro l
    cases l with
    | nil => exact ⟨0, rfl⟩
    | cons b0 rest => exact ⟨(b0 :: rest).length, (List.take_length _).symm⟩
  | succ f ih =>
    intro l
    cases l with
    | nil => exact ⟨0, rfl⟩
    | cons b0 rest =>
      simp only [goTrimRightF]
      cases hlast : (b0 :: rest).getLast? with
      | none => exact ⟨0, rfl⟩
      | some c =>
        simp only []
        by_cases hc : 0x80 ≤ c
        · simp only [hc, if_true]
          exact trimRightFuncF_eq_take (b0 :: rest).length (b0 :: rest)
        · simp only [hc, if_false]
          by_cases hsp : asciiSpace c
          · simp only [hsp, if_true]
            obtain ⟨i, hi⟩ := ih (b0 :: rest).dropLast
            refine ⟨min i ((b0 :: rest).length - 1), ?_⟩
            rw [hi, List.dropLast_eq_take, List.take_take]
          · simp only [hsp, if_false]
            exact ⟨(b0 :: rest).length, (List.take_length _).symm⟩

theorem goTrimSpace_eq_drop_take :
    ∀ (l : List Nat), ∃ i j, goTrimSpace l = (l.drop i).take j := by
  intro l
  induction l with
  | nil => exact ⟨0, 0, rfl⟩
  | cons c rest ih =>
    rw [goTrimSpace]
    by_cases hc : 0x80 ≤ c
    · simp only [hc, if_true]
      obtain ⟨i, hi⟩ := trimLeftFuncF_eq_drop (c :: rest).length (c :: rest)
      rw [show trimLeftFunc (c :: rest) = trimLeftFuncF (c :: rest).length (c :: rest) from rfl, hi]
      obtain ⟨j, hj⟩ :=
        trimRightFuncF_eq_take ((c :: rest).drop i).length ((c :: rest).drop i)
      exact ⟨i, j, hj⟩
    · simp only [hc, if_false]
      by_cases hsp : asciiSpace c
      · simp only [hsp, if_true]
        obtain ⟨i, j, hij⟩ := ih
        exact ⟨i + 1, j, by simpa using hij⟩
      · simp only [hsp, if_false]
        obtain ⟨j, hj⟩ := goTrimRightF_eq_take (c :: rest).length (c :: rest)
        exact ⟨0, j, by simpa using hj⟩

theorem mem_goTrimSpace (l : List Nat) (b : Nat) (hb : b ∈ goTrimSpace l) :
    b ∈ l := by
  obtain ⟨i, j, hij⟩ := goTrimSpace_eq_drop_take l
  rw [hij] at hb
  exact List.drop_subset _ _ (List.take_subset _ _ hb)

theorem runeChunk_ne_nil (c : List Nat) (h : runeChunk c = true) : c ≠ [] := by
  intro he
  subst he
  simp [runeChunk] at h

theorem contByte_of_accept3 (b0 b1 : Nat) (h : accept3 b0 b1 = true) :
    contByte b1 = true := by
  simp only [accept3] at h
  split_ifs at h <;> simp [contByte] at h ⊢ <;> omega

theorem contByte_of_accept4 (b0 b1 : Nat) (h : accept4 b0 b1 = true) :
    contByte b1 = true := by
  simp only [accept4] at h
  split_ifs at h <;> simp [contByte] at h ⊢ <;> omega

theorem getLast?_append_right (l' c : List Nat) (h : c ≠ []) :
    (l' ++ c).getLast? = c.getLast? := by
  induction l' with
  | nil => rfl
  | cons a t ih =>
    obtain ⟨x, xs, hx⟩ :=
      List.exists_cons_of_ne_nil (show t ++ c ≠ [] by simp [h])
    rw [List.cons_append, hx, List.getLast?_cons_cons, ← hx, ih]

theorem getD_append_len (l' c : List Nat) (k : Nat) :
    (l' ++ c).getD (l'.length + k) 0 = c.getD k 0 := by
  induction l' with
  | nil => simp
  | cons a t ih =>
    rw [List.cons_append, List.length_cons,
      show t.length + 1 + k = (t.length + k) + 1 from by omega,
      List.getD_cons_succ, ih]

/-- On valid strings, a last-chunk decomposition exists. -/
theorem validUTF8_decomp_last :
    ∀ (k : Nat) (l : List Nat), l.length ≤ k → validUTF8 l = true → l ≠ [] →
      ∃ l' c, l = l' ++ c ∧ validUTF8 l' = true ∧ runeChunk c = true := by
  intro k
  induction k with
  | zero =>
    intro l hl h hne
    exact absurd (List.length_eq_zero.mp (Nat.le_zero.mp hl)) hne
  | succ k ih =>
    intro l hl h hne
    obtain ⟨c₀, t, hct, hc₀, ht⟩ := validUTF8_decomp_first l h hne
    by_cases hte : t = []
    · subst hte
      exact ⟨[], c₀, by simpa using hct, rfl, hc₀⟩
    · have hlt : t.length ≤ k := by
        have h1 : 1 ≤ c₀.length :=
          List.length_pos.mpr (runeChunk_ne_nil c₀ hc₀)
        have h2 : l.length = c₀.length + t.length := by simp [hct]
        omega
      obtain ⟨l'', cl, htd, hl'', hcl⟩ := ih t hlt ht hte
      refine ⟨c₀ ++ l'', cl, ?_, ?_, hcl⟩
      · rw [hct, htd, List.append_assoc]
      · rw [validUTF8_chunk_append _ _ hc₀]
        exact hl''

/-- `DecodeLastRune` on a string ending in a rune chunk returns that chunk's
rune and width, whatever precedes it. -/
theorem decodeLastRune_append_chunk (l' c : List Nat) (h : runeChunk c = true) :
    decodeLastRune (l' ++ c) = ((decodeRune c).1, c.length) := by
  have hsnd := decodeRune_chunk_snd c h
  match c with
  | [b0] =>
    simp only [runeChunk, decide_eq_true_eq] at h
    have he : (l' ++ [b0]).length = l'.length + 1 := by simp
    have hb : (l' ++ [b0]).getD ((l' ++ [b0]).length - 1) 0 = b0 := by
      rw [he, show l'.length + 1 - 1 = l'.length + 0 from by omega,
        getD_append_len]
      rfl
    unfold decodeLastRune
    rw [if_neg (show ¬ (l' ++ [b0]).length = 0 from by simp)]
    simp only [hb]
    rw [if_pos h]
    simp [decodeRune, h]
  | [b0, b1] =>
    simp only [runeChunk, Bool.and_eq_true, decide_eq_true_eq] at h
    obtain ⟨⟨h1, h2⟩, h3⟩ := h
    have hb1 : ¬ b1 < 0x80 := by
      simp only [contByte, Bool.and_eq_true, decide_eq_true_eq] at h3
      omega
    have he : (l' ++ [b0, b1]).length = l'.length + 2 := by simp
    have hb : (l' ++ [b0, b1]).getD ((l' ++ [b0, b1]).length - 1) 0 = b1 := by
      rw [he, show l'.length + 2 - 1 = l'.length + 1 from by omega,
        getD_append_len]
      rfl
    have hstart : runeStartAt (l' ++ [b0, b1]) 2 = true := by
      rw [runeStartAt, he, show l'.length + 2 - 2 = l'.length + 0 from by omega,
        getD_append_len]
      simp [contByte]
      omega
    have hcheck : checkLast (l' ++ [b0, b1]) 2 = ((decodeRune [b0, b1]).1, 2) := by
      rw [checkLast, he, show l'.length + 2 - 2 = l'.length from by omega,
        List.drop_left]
      simp only [hsnd, List.length_cons, List.length_nil, if_true]
      exact Prod.ext_iff.mpr ⟨rfl, hsnd⟩
    unfold decodeLastRune
    rw [if_neg (show ¬ (l' ++ [b0, b1]).length = 0 from by simp)]
    simp only [hb]
    rw [if_neg hb1,
      if_neg (show ¬ (l' ++ [b0, b1]).length = 1 from by rw [he]; omega),
      if_pos hstart, hcheck]
    rfl
  | [b0, b1, b2] =>
    simp only [runeChunk, Bool.and_eq_true, decide_eq_true_eq] at h
    obtain ⟨⟨h1, h2⟩, h3, h4⟩ := h
    have hb2 : ¬ b2 < 0x80 := by
      simp only [contByte, Bool.and_eq_true, decide_eq_true_eq] at h4
      omega
    have hc1 := contByte_of_accept3 b0 b1 h3
    have he : (l' ++ [b0, b1, b2]).length = l'.length + 3 := by simp
    have hb : (l' ++ [b0, b1, b2]).getD ((l' ++ [b0, b1, b2]).length - 1) 0 = b2 := by
      rw [he, show l'.length + 3 - 1 = l'.length + 2 from by omega,
        getD_append_len]
      rfl
    have hstart2 : runeStartAt (l' ++ [b0, b1, b2]) 2 = false := by
      rw [runeStartAt, he, show l'.length + 3 - 2 = l'.length + 1 from by omega,
        getD_append_len]
      simpa using hc1
    have hstart3 : runeStartAt (l' ++ [b0, b1, b2]) 3 = true := by
      rw [runeStartAt, he, show l'.length + 3 - 3 = l'.length + 0 from by omega,
        getD_append_len]
      simp [contByte]
      omega
    have hcheck : checkLast (l' ++ [b0, b1, b2]) 3 =
        ((decodeRune [b0, b1, b2]).1, 3) := by
      rw [checkLast, he, show l'.length + 3 - 3 = l'.length from by omega,
        List.drop_left]
      simp only [hsnd, List.length_cons, List.length_nil, if_true]
      exact Prod.ext_iff.mpr ⟨rfl, hsnd⟩
    unfold decodeLastRune
    rw [if_neg (show ¬ (l' ++ [b0, b1, b2]).length = 0 from by simp)]
    simp only [hb]
    rw [if_neg hb2,
      if_neg (show ¬ (l' ++ [b0, b1, b2]).length = 1 from by rw [he]; omega),
      if_neg (show ¬ runeStartAt (l' ++ [b0, b1, b2]) 2 = true from by
        simp [hstart2]),
      if_neg (show ¬ (l' ++ [b0, b1, b2]).length = 2 from by rw [he]; omega),
      if_pos hstart3, hcheck]
    rfl
  | [b0, b1, b2, b3] =>
    simp only [runeChunk, Bool.and_eq_true, decide_eq_true_eq] at h
    obtain ⟨⟨h1, h2⟩, h3, h4, h5⟩ := h
    have hb3 : ¬ b3 < 0x80 := by
      simp only [contByte, Bool.and_eq_true, decide_eq_true_eq] at h5
      omega
    have hc1 := contByte_of_accept4 b0 b1 h3
    have he : (l' ++ [b0, b1, b2, b3]).length = l'.length + 4 := by simp
    have hb : (l' ++ [b0, b1, b2, b3]).getD
        ((l' ++ [b0, b1, b2, b3]).length - 1) 0 = b3 := by
      rw [he, show l'.length + 4 - 1 = l'.length + 3 from by omega,
        getD_append_len]
      rfl
    have hstart2 : runeStartAt (l' ++ [b0, b1, b2, b3]) 2 = false := by
      rw [runeStartAt, he, show l'.length + 4 - 2 = l'.length + 2 from by omega,
        getD_append_len]
      simpa using h4
    have hstart3 : runeStartAt (l' ++ [b0, b1, b2, b3]) 3 = false := by
      rw [runeStartAt, he, show l'.length + 4 - 3 = l'.length + 1 from by omega,
        getD_append_len]
      simpa using hc1
    have hstart4 : runeStartAt (l' ++ [b0, b1, b2, b3]) 4 = true := by
      rw [runeStartAt, he, show l'.length + 4 - 4 = l'.length + 0 from by omega,
        getD_append_len]
      simp [contByte]
      omega
    have hcheck : checkLast (l' ++ [b0, b1, b2, b3]) 4 =
        ((decodeRune [b0, b1, b2, b3]).1, 4) := by
      rw [checkLast, he, show l'.length + 4 - 4 = l'.length from by omega,
        List.drop_left]
      simp only [hsnd, List.length_cons, List.length_nil, if_true]
      exact Prod.ext_iff.mpr ⟨rfl, hsnd⟩
    unfold decodeLastRune
    rw [if_neg (show ¬ (l' ++ [b0, b1, b2, b3]).length = 0 from by simp)]
    simp only [hb]
    rw [if_neg hb3,
      if_neg (show ¬ (l' ++ [b0, b1, b2, b3]).length = 1 from by rw [he]; omega),
      if_neg (show ¬ runeStartAt (l' ++ [b0, b1, b2, b3]) 2 = true from by
        simp [hstart2]),
      if_neg (show ¬ (l' ++ [b0, b1, b2, b3]).length = 2 from by rw [he]; omega),
      if_neg (show ¬ runeStartAt (l' ++ [b0, b1, b2, b3]) 3 = true from by
        simp [hstart3]),
      if_neg (show ¬ (l' ++ [b0, b1, b2, b3]).length = 3 from by rw [he]; omega),
      if_pos hstart4, hcheck]
    rfl
  | [] => simp [runeChunk] at h
  | b0 :: b1 :: b2 :: b3 :: b4 :: r => simp [runeChunk] at h

/-! ### Trimming preserves validity and removes edge whitespace -/

theorem isSpaceRune_eq_asciiSpace (b : Nat) (h : b < 0x80) :
    isSpaceRune b = asciiSpace b := by
  simp only [isSpaceRune, asciiSpace, decide_eq_decide]
  constructor <;> intro hx <;> omega

theorem getD_of_getLast? (l : List Nat) (c : Nat) (h : l.getLast? = some c) :
    l.getD (l.length - 1) 0 = c := by
  rw [List.getD_eq_getElem?_getD, ← List.getLast?_eq_getElem?, h]
  rfl

theorem dropLast_append_of_getLast? (l : List Nat) (hne : l ≠ []) (c : Nat)
    (h : l.getLast? = some c) : l.dropLast ++ [c] = l := by
  have h2 := List.getLast?_eq_getLast l hne
  rw [h] at h2
  rw [show c = l.getLast hne from Option.some.inj h2]
  exact List.dropLast_append_getLast hne

/-- Dropping one rune's width from the front of a valid string stays
valid. -/
theorem validUTF8_drop_width (b0 : Nat) (rest : List Nat)
    (h : validUTF8 (b0 :: rest) = true) :
    validUTF8 ((b0 :: rest).drop (decodeRune (b0 :: rest)).2) = true := by
  rw [validUTF8_cons] at h
  by_cases h2 : 2 ≤ (decodeRune (b0 :: rest)).2
  · simpa [h2] using h
  · have h1 : (decodeRune (b0 :: rest)).2 = 1 := by
      have := one_le_decodeRune_snd b0 rest
      omega
    rw [h1]
    simp only [h2, if_false] at h
    by_cases hb : b0 < 0x80
    · simpa [hb] using h
    · simp [hb] at h

/-- Removing a final ASCII byte from a valid string stays valid: the last
chunk of the decomposition must be that single byte, since multi-byte
chunks end in a continuation byte. -/
theorem validUTF8_dropLast_ascii (l : List Nat) (a : Nat) (ha : a < 0x80)
    (hv : validUTF8 (l ++ [a]) = true) : validUTF8 l = true := by
  obtain ⟨l'', ch, heq, hv'', hch⟩ :=
    validUTF8_decomp_last (l ++ [a]).length (l ++ [a]) le_rfl hv (by simp)
  have hlast : some a = ch.getLast? := by
    rw [← getLast?_append_right l'' ch (runeChunk_ne_nil ch hch), ← heq,
      getLast?_append_right l [a] (by simp)]
    rfl
  match ch, hch, hlast, heq with
  | [x], hch, hlast, heq =>
    obtain ⟨h1, _⟩ := List.append_inj' heq rfl
    rw [h1]
    exact hv''
  | [x0, x1], hch, hlast, heq =>
    exfalso
    simp only [runeChunk, Bool.and_eq_true, decide_eq_true_eq] at hch
    have := hch.2
    have hax : a = x1 := by simpa using hlast
    simp [contByte] at this
    omega
  | [x0, x1, x2], hch, hlast, heq =>
    exfalso
    simp only [runeChunk, Bool.and_eq_true, decide_eq_true_eq] at hch
    have := hch.2.2
    have hax : a = x2 := by simpa using hlast
    simp [contByte] at this
    omega
  | [x0, x1, x2, x3], hch, hlast, heq =>
    exfalso
    simp only [runeChunk, Bool.and_eq_true, decide_eq_true_eq] at hch
    have := hch.2.2.2
    have hax : a = x3 := by simpa using hlast
    simp [contByte] at this
    omega
  | [], hch, _, _ => simp [runeChunk] at hch
  | x0 :: x1 :: x2 :: x3 :: x4 :: rr, hch, _, _ => simp [runeChunk] at hch

/-- `TrimLeftFunc(IsSpace)` keeps the string valid and leaves a nonspace
first rune. -/
theorem trimLeftFuncF_good :
    ∀ (fuel : Nat) (l : List Nat), l.length ≤ fuel → validUTF8 l = true →
      validUTF8 (trimLeftFuncF fuel l) = true ∧
      isSpaceRune (decodeRune (trimLeftFuncF fuel l)).1 = false := by
  intro fuel
  induction fuel with
  | zero =>
    intro l hl _
    have h0 : l = [] := List.length_eq_zero.mp (Nat.le_zero.mp hl)
    subst h0
    exact ⟨rfl, by decide⟩
  | succ f ih =>
    intro l hl hv
    cases l with
    | nil =>
      have he : trimLeftFuncF (f + 1) ([] : List Nat) = [] := by
        simp [trimLeftFuncF]
      rw [he]
      exact ⟨rfl, by decide⟩
    | cons b0 rest =>
      simp only [trimLeftFuncF]
      by_cases hs : isSpaceRune (decodeRune (b0 :: rest)).1
      · simp only [hs, if_true]
        have hw := one_le_decodeRune_snd b0 rest
        have hlen : ((b0 :: rest).drop (decodeRune (b0 :: rest)).2).length ≤ f := by
          simp only [List.length_drop, List.length_cons]
          simp only [List.length_cons] at hl
          omega
        exact ih _ hlen (validUTF8_drop_width b0 rest hv)
      · simp only [hs, if_false]
        exact ⟨hv, by simpa using hs⟩

/-- `TrimRightFunc(IsSpace)` keeps the string valid, leaves a nonspace last
rune, and returns a prefix of its input. -/
theorem trimRightFuncF_good :
    ∀ (fuel : Nat) (l : List Nat), l.length ≤ fuel → validUTF8 l = true →
      validUTF8 (trimRightFuncF fuel l) = true ∧
      isSpaceRune (decodeLastRune (trimRightFuncF fuel l)).1 = false ∧
      ∃ t, l = trimRightFuncF fuel l ++ t := by
  intro fuel
  induction fuel with
  | zero =>
    intro l hl _
    have h0 : l = [] := List.length_eq_zero.mp (Nat.le_zero.mp hl)
    subst h0
    exact ⟨rfl, by decide, [], rfl⟩
  | succ f ih =>
    intro l hl hv
    cases l with
    | nil =>
      have he : trimRightFuncF (f + 1) ([] : List Nat) = [] := by
        simp [trimRightFuncF]
      rw [he]
      exact ⟨rfl, by decide, [], rfl⟩
    | cons b0 rest =>
      simp only [List.length_cons] at hl
      simp only [trimRightFuncF]
      by_cases hs : isSpaceRune (decodeLastRune (b0 :: rest)).1
      · simp only [hs, if_true]
        obtain ⟨l', c, heq, hv', hc⟩ :=
          validUTF8_decomp_last (b0 :: rest).length (b0 :: rest) le_rfl hv
            (by simp)
        have hdl : decodeLastRune (b0 :: rest) = ((decodeRune c).1, c.length) := by
          rw [heq]
          exact decodeLastRune_append_chunk l' c hc
        have hcl : 1 ≤ c.length :=
          List.length_pos.mpr (runeChunk_ne_nil c hc)
        have hlen2 : rest.length + 1 = l'.length + c.length := by
          have := congrArg List.length heq
          simpa using this
        have htake :
            (b0 :: rest).take (rest.length + 1 - (decodeLastRune (b0 :: rest)).2)
              = l' := by
          simp only [hdl]
          rw [show rest.length + 1 - c.length = l'.length from by omega, heq,
            List.take_left]
        rw [htake]
        obtain ⟨hv'', hns, t, ht⟩ := ih l' (by omega) hv'
        refine ⟨hv'', hns, t ++ c, ?_⟩
        rw [heq, ← List.append_assoc, ← ht]
      · simp only [hs, if_false]
        exact ⟨hv, by simpa using hs, [], (List.append_nil _).symm⟩

/-- The right-scan loop of `TrimSpace` keeps the string valid, leaves a
nonspace last rune, and returns a prefix of its input. -/
theorem goTrimRightF_good :
    ∀ (fuel : Nat) (l : List Nat), l.length ≤ fuel → validUTF8 l = true →
      validUTF8 (goTrimRightF fuel l) = true ∧
      isSpaceRune (decodeLastRune (goTrimRightF fuel l)).1 = false ∧
      ∃ t, l = goTrimRightF fuel l ++ t := by
  intro fuel
  induction fuel with
  | zero =>
    intro l hl _
    have h0 : l = [] := List.length_eq_zero.mp (Nat.le_zero.mp hl)
    subst h0
    exact ⟨rfl, by decide, [], rfl⟩
  | succ f ih =>
    intro l hl hv
    cases l with
    | nil =>
      have he : goTrimRightF (f + 1) ([] : List Nat) = [] := by
        simp [goTrimRightF]
      rw [he]
      exact ⟨rfl, by decide, [], rfl⟩
    | cons b0 rest =>
      simp only [List.length_cons] at hl
      simp only [goTrimRightF]
      cases hlast : (b0 :: rest).getLast? with
      | none =>
        rw [List.getLast?_eq_none_iff] at hlast
        cases hlast
      | some c =>
        simp only []
        by_cases hc : 0x80 ≤ c
        · rw [if_pos hc]
          exact trimRightFuncF_good (b0 :: rest).length (b0 :: rest) le_rfl hv
        · rw [if_neg hc]
          by_cases hsp : asciiSpace c
          · rw [if_pos hsp]
            have hne : (b0 :: rest) ≠ [] := by simp
            have hsplit := dropLast_append_of_getLast? (b0 :: rest) hne c hlast
            have hvd : validUTF8 (b0 :: rest).dropLast = true :=
              validUTF8_dropLast_ascii _ c (by omega)
                (by rw [hsplit]; exact hv)
            have hlend : (b0 :: rest).dropLast.length ≤ f := by
              simp only [List.length_dropLast, List.length_cons]
              omega
            obtain ⟨h1, h2, t, h3⟩ := ih _ hlend hvd
            refine ⟨h1, h2, t ++ [c], ?_⟩
            conv_lhs => rw [← hsplit, h3]
            rw [List.append_assoc]
          · rw [if_neg hsp]
            refine ⟨hv, ?_, [], (List.append_nil _).symm⟩
            have hgd : (b0 :: rest).getD ((b0 :: rest).length - 1) 0 = c :=
              getD_of_getLast? _ c hlast
            unfold decodeLastRune
            rw [if_neg (show ¬ (b0 :: rest).length = 0 from by simp)]
            simp only [hgd]
            rw [if_pos (show c < 0x80 from by omega)]
            rw [isSpaceRune_eq_asciiSpace c (by omega)]
            simpa using hsp

/-- A nonempty valid prefix decodes to the same first rune as the whole
string. -/
theorem decodeRune_fst_of_front (r l : List Nat) (hv : validUTF8 r = true)
    (hne : r ≠ []) (hpre : ∃ t, l = r ++ t) :
    (decodeRune r).1 = (decodeRune l).1 := by
  obtain ⟨t, ht⟩ := hpre
  obtain ⟨c, tr, hr, hc, _⟩ := validUTF8_decomp_first r hv hne
  rw [ht, hr, List.append_assoc, decodeRune_chunk_append c (tr ++ t) hc,
    decodeRune_chunk_append c tr hc]

/-- `strings.TrimSpace` on a valid string: the result is valid and neither
its first nor its last rune is whitespace. -/
theorem goTrimSpace_good :
    ∀ (l : List Nat), validUTF8 l = true →
      validUTF8 (goTrimSpace l) = true ∧
      isSpaceRune (decodeRune (goTrimSpace l)).1 = false ∧
      isSpaceRune (decodeLastRune (goTrimSpace l)).1 = false := by
  intro l
  induction l with
  | nil => intro _; exact ⟨rfl, by decide, by decide⟩
  | cons c rest ih =>
    intro hv
    rw [goTrimSpace]
    by_cases hc : 0x80 ≤ c
    · rw [if_pos hc]
      obtain ⟨hvL, hnsL⟩ :=
        trimLeftFuncF_good (c :: rest).length (c :: rest) le_rfl hv
      obtain ⟨hvR, hnsR, hpre⟩ :=
        trimRightFuncF_good (trimLeftFunc (c :: rest)).length
          (trimLeftFunc (c :: rest)) le_rfl hvL
      refine ⟨hvR, ?_, hnsR⟩
      by_cases hre : trimRightFunc (trimLeftFunc (c :: rest)) = []
      · rw [hre]; decide
      · rw [decodeRune_fst_of_front (trimRightFunc (trimLeftFunc (c :: rest)))
          (trimLeftFunc (c :: rest)) hvR hre hpre]
        exact hnsL
    · rw [if_neg hc]
      by_cases hsp : asciiSpace c
      · rw [if_pos hsp]
        have hvr : validUTF8 rest = true := by
          rw [← validUTF8_cons_ascii c rest (by omega)]
          exact hv
        exact ih hvr
      · rw [if_neg hsp]
        obtain ⟨h1, h2, hpre⟩ :=
          goTrimRightF_good (c :: rest).length (c :: rest) le_rfl hv
        refine ⟨h1, ?_, h2⟩
        by_cases hre : goTrimRight (c :: rest) = []
        · rw [hre]; decide
        · rw [decodeRune_fst_of_front (goTrimRight (c :: rest)) (c :: rest)
            h1 hre hpre]
          rw [show decodeRune (c :: rest) = (c, 1) from by
            simp [decodeRune, show c < 0x80 from by omega]]
          rw [isSpaceRune_eq_asciiSpace c (by omega)]
          simpa using hsp

theorem validUTF8_replicate97_append (n : Nat) (l : List Nat) :
    validUTF8 (List.replicate n 97 ++ l) = validUTF8 l := by
  induction n with
  | zero => simp
  | succ k ih =>
    rw [List.replicate_succ, List.cons_append,
      validUTF8_cons_ascii 97 _ (by norm_num), ih]

/-- `bytes.ToValidUTF8` is the identity on valid strings. -/
theorem toValidUTF8F_of_valid :
    ∀ (fuel : Nat) (l : List Nat), l.length ≤ fuel → validUTF8 l = true →
      toValidUTF8F fuel false l = l := by
  intro fuel
  induction fuel with
  | zero =>
    intro l hl _
    have h0 : l = [] := List.length_eq_zero.mp (Nat.le_zero.mp hl)
    subst h0
    rfl
  | succ f ih =>
    intro l hl hv
    cases l with
    | nil => rfl
    | cons c rest =>
      simp only [List.length_cons] at hl
      simp only [toValidUTF8F]
      by_cases hc : c < 0x80
      · rw [if_pos hc]
        have hvr : validUTF8 rest = true := by
          rw [← validUTF8_cons_ascii c rest hc]
          exact hv
        rw [ih rest (by omega) hvr]
      · rw [if_neg hc]
        have h2 : 2 ≤ (decodeRune (c :: rest)).2 := by
          rw [validUTF8_cons] at hv
          by_cases h2 : 2 ≤ (decodeRune (c :: rest)).2
          · exact h2
          · rw [if_neg h2, if_neg hc] at hv
            cases hv
        rw [if_neg (by omega)]
        have hvd := validUTF8_drop_width c rest hv
        have hld : ((c :: rest).drop (decodeRune (c :: rest)).2).length ≤ f := by
          simp only [List.length_drop, List.length_cons]
          omega
        rw [ih _ hld hvd, List.take_append_drop]

theorem toValidUTF8_of_valid (l : List Nat) (h : validUTF8 l = true) :
    toValidUTF8 l = l :=
  toValidUTF8F_of_valid l.length l le_rfl h

theorem filter_ne_zero_of (l : List Nat) (h : ∀ b ∈ l, b ≠ 0) :
    List.filter (fun b => b ≠ 0) l = l := by
  rw [List.filter_eq_self]
  intro a ha
  simpa using h a ha

theorem goTrimSpace_cons_low (c : Nat) (rest : List Nat) (h1 : c < 0x80)
    (h2 : asciiSpace c = false) :
    goTrimSpace (c :: rest) = goTrimRight (c :: rest) := by
  rw [goTrimSpace, if_neg (by omega), if_neg (by simp [h2])]

theorem goTrimRightF_last_nonspace (f b0 : Nat) (rest : List Nat) (c : Nat)
    (hl : (b0 :: rest).getLast? = some c) (hc : c < 0x80)
    (hs : asciiSpace c = false) :
    goTrimRightF (f + 1) (b0 :: rest) = b0 :: rest := by
  simp only [goTrimRightF, hl]
  rw [if_neg (by omega), if_neg (by simp [hs])]

theorem goTrimRightF_last_high (f b0 : Nat) (rest : List Nat) (c : Nat)
    (hl : (b0 :: rest).getLast? = some c) (hc : 0x80 ≤ c) :
    goTrimRightF (f + 1) (b0 :: rest) = trimRightFunc (b0 :: rest) := by
  simp only [goTrimRightF, hl]
  rw [if_pos hc]

theorem trimRightFuncF_nonspace (f b0 : Nat) (rest : List Nat)
    (h : isSpaceRune (decodeLastRune (b0 :: rest)).1 = false) :
    trimRightFuncF (f + 1) (b0 :: rest) = b0 :: rest := by
  simp only [trimRightFuncF]
  rw [if_neg (by simp [h])]

/-- `TrimSpace` is the identity on a string with ASCII nonspace first and
last bytes. -/
theorem goTrimSpace_id_ascii (b0 : Nat) (rest : List Nat) (hb : b0 < 0x80)
    (hbs : asciiSpace b0 = false) (c : Nat)
    (hl : (b0 :: rest).getLast? = some c) (hc : c < 0x80)
    (hcs : asciiSpace c = false) :
    goTrimSpace (b0 :: rest) = b0 :: rest := by
  rw [goTrimSpace_cons_low b0 rest hb hbs, goTrimRight, List.length_cons]
  exact goTrimRightF_last_nonspace rest.length b0 rest c hl hc hcs

/-- `TrimSpace` is the identity on a string with an ASCII nonspace first
byte, a non-ASCII last byte and a nonspace last rune. -/
theorem goTrimSpace_id_high (b0 : Nat) (rest : List Nat) (hb : b0 < 0x80)
    (hbs : asciiSpace b0 = false) (c : Nat)
    (hl : (b0 :: rest).getLast? = some c) (hc : 0x80 ≤ c)
    (hns : isSpaceRune (decodeLastRune (b0 :: rest)).1 = false) :
    goTrimSpace (b0 :: rest) = b0 :: rest := by
  rw [goTrimSpace_cons_low b0 rest hb hbs, goTrimRight, List.length_cons,
    goTrimRightF_last_high rest.length b0 rest c hl hc,
    trimRightFunc, List.length_cons]
  exact trimRightFuncF_nonspace rest.length b0 rest hns

/-- **C5, counterexample.**  The final clamp is to 4000 *bytes* and is
applied after the re-trim, so it can reintroduce trailing whitespace
(3999 bytes of `a`, then `" b"`: the cut keeps the space) and can cut a
2-byte rune in half (3999 bytes of `a`, then `"é"` = `C3 A9`: the cut
keeps the lone lead byte `C3`), contradicting the claim that the output
always has no trailing whitespace and is valid UTF-8. -/
theorem c5_clamp_breaks_trim_and_utf8 :
    noEdgeSpace (sanitizeMessage (List.replicate 3999 97 ++ [32, 98])) = false ∧
    validUTF8 (sanitizeMessage (List.replicate 3999 97 ++ [195, 169])) = false := by
  have hrep : List.replicate 3999 (97 : Nat) = 97 :: List.replicate 3998 97 :=
    List.replicate_succ 97 3998
  constructor
  · have hshape : List.replicate 3999 97 ++ [32, 98] =
        97 :: (List.replicate 3998 97 ++ [32, 98]) := by
      rw [hrep, List.cons_append]
    have hlast : (97 :: (List.replicate 3998 97 ++ [32, 98])).getLast?
        = some 98 := by
      rw [show 97 :: (List.replicate 3998 97 ++ [32, 98])
            = (97 :: List.replicate 3998 97) ++ [32, 98] from by
          rw [List.cons_append],
        getLast?_append_right _ _ (by simp)]
      rfl
    have hts : goTrimSpace (97 :: (List.replicate 3998 97 ++ [32, 98]))
        = 97 :: (List.replicate 3998 97 ++ [32, 98]) :=
      goTrimSpace_id_ascii 97 _ (by norm_num) (by decide) 98 hlast
        (by norm_num) (by decide)
    have hfilter : List.filter (fun b => b ≠ 0)
        (97 :: (List.replicate 3998 97 ++ [32, 98]))
        = 97 :: (List.replicate 3998 97 ++ [32, 98]) := by
      refine filter_ne_zero_of _ ?_
      intro b hb
      simp only [List.mem_cons, List.mem_append] at hb
      rcases hb with rfl | h | h
      · decide
      · rw [List.eq_of_mem_replicate h]
        decide
      · simp only [List.mem_cons, List.not_mem_nil, or_false] at h
        rcases h with rfl | rfl <;> decide
    have hvalid : validUTF8 (97 :: (List.replicate 3998 97 ++ [32, 98]))
        = true := by
      rw [← hshape, validUTF8_replicate97_append]
      rfl
    have htv := toValidUTF8_of_valid _ hvalid
    have hlen : (97 :: (List.replicate 3998 97 ++ [32, 98])).length = 4001 := by
      simp only [List.length_cons, List.length_append, List.length_replicate,
        List.length_nil]
    have htake : (97 :: (List.replicate 3998 97 ++ [32, 98])).take 4000
        = 97 :: (List.replicate 3998 97 ++ [32]) := by
      rw [show (4000 : Nat) = 3999 + 1 from rfl, List.take_succ_cons,
        List.take_append_eq_append_take,
        List.take_of_length_le
          (by rw [List.length_replicate]; norm_num :
            (List.replicate 3998 (97 : Nat)).length ≤ 3999),
        List.length_replicate,
        show (3999 - 3998 : Nat) = 1 from rfl,
        show List.take 1 [32, 98] = [32] from rfl]
    rw [hshape]
    simp only [sanitizeMessage]
    rw [hts, hfilter, htv, hts, if_pos (by rw [hlen]; norm_num), htake]
    rw [show 97 :: (List.replicate 3998 97 ++ [32])
          = (97 :: List.replicate 3998 97) ++ [32] from by
        rw [List.cons_append]]
    have hdlast : decodeLastRune ((97 :: List.replicate 3998 97) ++ [32])
        = (32, 1) := by
      rw [decodeLastRune_append_chunk _ _ (by decide)]
      rfl
    simp only [noEdgeSpace]
    rw [hdlast, show isSpaceRune ((32 : Nat), (1 : Nat)).1 = true from by decide,
      Bool.not_true, Bool.and_false]
  · have hshape : List.replicate 3999 97 ++ [195, 169] =
        97 :: (List.replicate 3998 97 ++ [195, 169]) := by
      rw [hrep, List.cons_append]
    have hlast : (97 :: (List.replicate 3998 97 ++ [195, 169])).getLast?
        = some 169 := by
      rw [show 97 :: (List.replicate 3998 97 ++ [195, 169])
            = (97 :: List.replicate 3998 97) ++ [195, 169] from by
          rw [List.cons_append],
        getLast?_append_right _ _ (by simp)]
      rfl
    have hns : isSpaceRune
        (decodeLastRune (97 :: (List.replicate 3998 97 ++ [195, 169]))).1
        = false := by
      rw [show 97 :: (List.replicate 3998 97 ++ [195, 169])
            = (97 :: List.replicate 3998 97) ++ [195, 169] from by
          rw [List.cons_append],
        decodeLastRune_append_chunk (97 :: List.replicate 3998 97) [195, 169]
          (by decide)]
      decide
    have hts : goTrimSpace (97 :: (List.replicate 3998 97 ++ [195, 169]))
        = 97 :: (List.replicate 3998 97 ++ [195, 169]) :=
      goTrimSpace_id_high 97 _ (by norm_num) (by decide) 169 hlast
        (by norm_num) hns
    have hfilter : List.filter (fun b => b ≠ 0)
        (97 :: (List.replicate 3998 97 ++ [195, 169]))
        = 97 :: (List.replicate 3998 97 ++ [195, 169]) := by
      refine filter_ne_zero_of _ ?_
      intro b hb
      simp only [List.mem_cons, List.mem_append] at hb
      rcases hb with rfl | h | h
      · decide
      · rw [List.eq_of_mem_replicate h]
        decide
      · simp only [List.mem_cons, List.not_mem_nil, or_false] at h
        rcases h with rfl | rfl <;> decide
    have hvalid : validUTF8 (97 :: (List.replicate 3998 97 ++ [195, 169]))
        = true := by
      rw [← hshape, validUTF8_replicate97_append]
      rfl
    have htv := toValidUTF8_of_valid _ hvalid
    have hlen : (97 :: (List.replicate 3998 97 ++ [195, 169])).length
        = 4001 := by
      simp only [List.length_cons, List.length_append, List.length_replicate,
        List.length_nil]
    have htake : (97 :: (List.replicate 3998 97 ++ [195, 169])).take 4000
        = 97 :: (List.replicate 3998 97 ++ [195]) := by
      rw [show (4000 : Nat) = 3999 + 1 from rfl, List.take_succ_cons,
        List.take_append_eq_append_take,
        List.take_of_length_le
          (by rw [List.length_replicate]; norm_num :
            (List.replicate 3998 (97 : Nat)).length ≤ 3999),
        List.length_replicate,
        show (3999 - 3998 : Nat) = 1 from rfl,
        show List.take 1 [195, 169] = [195] from rfl]
    rw [hshape]
    simp only [sanitizeMessage]
    rw [hts, hfilter, htv, hts, if_pos (by rw [hlen]; norm_num), htake]
    rw [show 97 :: (List.replicate 3998 97 ++ [195])
          = List.replicate 3999 97 ++ [195] from by
        rw [hrep, List.cons_append],
      validUTF8_replicate97_append]
    rfl

/-- **C5, amended.**  For every input, `sanitizeMessage` returns a string
with no NUL bytes of at most 4000 bytes; and whenever the re-trimmed
string is within the 4000-byte clamp (in particular for all messages of
at most 4000 bytes), the output is additionally valid UTF-8 with no
leading or trailing whitespace rune.  (Without that proviso the clamp can
break both properties, see the counterexample.) -/
theorem c5_sanitized_message (msg : List Nat) :
    (∀ b ∈ sanitizeMessage msg, b ≠ 0) ∧
    (sanitizeMessage msg).length ≤ 4000 ∧
    ((goTrimSpace (toValidUTF8
        (List.filter (fun b => b ≠ 0) (goTrimSpace msg)))).length ≤ 4000 →
      validUTF8 (sanitizeMessage msg) = true ∧
      noEdgeSpace (sanitizeMessage msg) = true) := by
  have hval : validUTF8 (toValidUTF8
      (List.filter (fun b => b ≠ 0) (goTrimSpace msg))) = true :=
    validUTF8_toValidUTF8 _
  obtain ⟨hv3, hfst, hlst⟩ := goTrimSpace_good _ hval
  refine ⟨?_, ?_, ?_⟩
  · intro b hb
    simp only [sanitizeMessage] at hb
    have hb3 : b ∈ goTrimSpace (toValidUTF8
        (List.filter (fun b => b ≠ 0) (goTrimSpace msg))) := by
      by_cases hlen : 4000 < (goTrimSpace (toValidUTF8
          (List.filter (fun b => b ≠ 0) (goTrimSpace msg)))).length
      · rw [if_pos hlen] at hb
        exact List.take_subset _ _ hb
      · rw [if_neg hlen] at hb
        exact hb
    rcases mem_toValidUTF8 _ _ (mem_goTrimSpace _ _ hb3) with h | h
    · simpa using (List.mem_filter.mp h).2
    · subst h
      decide
  · simp only [sanitizeMessage]
    by_cases hlen : 4000 < (goTrimSpace (toValidUTF8
        (List.filter (fun b => b ≠ 0) (goTrimSpace msg)))).length
    · rw [if_pos hlen]
      simp [List.length_take]
    · rw [if_neg hlen]
      omega
  · intro h
    have hs : sanitizeMessage msg = goTrimSpace (toValidUTF8
        (List.filter (fun b => b ≠ 0) (goTrimSpace msg))) := by
      simp only [sanitizeMessage]
      rw [if_neg (by omega)]
    rw [hs]
    refine ⟨hv3, ?_⟩
    simp only [noEdgeSpace]
    rw [hfst, hlst]
    rfl

/-! ### The Docker log stream parser (`internal/logs/parser.go`) -/

/-- Byte-wise ASCII uppercasing: the effect of `strings.ToUpper` on the
ASCII runes of a string.  Bytes outside `a`..`z` (in particular every byte
of a non-ASCII rune) are left unchanged; the Unicode simple-case table of
`unicode.ToUpper`, which can additionally change non-ASCII runes, is not
modelled, and no theorem below uppercases non-ASCII input. -/
def toUpperGo (l : List Nat) : List Nat :=
  l.map (fun b => if 97 ≤ b ∧ b ≤ 122 then b - 32 else b)

/-- Whether the byte string `p` is a prefix of `l`. -/
def beginsWith : List Nat → List Nat → Bool
  | _, [] => true
  | [], _ :: _ => false
  | a :: l, b :: p => a = b && beginsWith l p

/-- `strings.Contains` on byte strings. -/
def containsSeq : List Nat → List Nat → Bool
  | [], p => beginsWith [] p
  | a :: l, p => beginsWith (a :: l) p || containsSeq l p

/-- `inferLevel` from `parser.go`: uppercase, then look for `ERROR`,
`FATAL`, `PANIC`; `WARN`; `DEBUG`; else `INFO`. -/
def inferLevel (msg : List Nat) : String :=
  let u := toUpperGo msg
  if containsSeq u [69, 82, 82, 79, 82] || containsSeq u [70, 65, 84, 65, 76]
      || containsSeq u [80, 65, 78, 73, 67] then "ERROR"
  else if containsSeq u [87, 65, 82, 78] then "WARN"
  else if containsSeq u [68, 69, 66, 85, 71] then "DEBUG"
  else "INFO"

/-- An ASCII digit byte. -/
def isDigitB (b : Nat) : Bool := 48 ≤ b ∧ b ≤ 57

/-- The value of a run of ASCII digit bytes. -/
def digitsVal (l : List Nat) : Nat :=
  l.foldl (fun acc b => acc * 10 + (b - 48)) 0

/-- The length of the leading digit run. -/
def countDigits : List Nat → Nat
  | [] => 0
  | b :: t => if isDigitB b then countDigits t + 1 else 0

/-- Days from 1970-01-01 to year-month-day (year `0..9999`, month `1..12`,
day `1..31`), with exactly the overflow normalization `time.Date` applies
(April 31 is May 1): the day count is days-to-start-of-month plus
`day - 1`. -/
def daysFromCivil (y m d : Nat) : Int :=
  let y2 : Nat := if m ≤ 2 then y + 399 else y + 400
  let m2 : Nat := if m ≤ 2 then m + 12 else m
  let era := y2 / 400
  let yoe := y2 % 400
  let doy := (153 * (m2 - 3) + 2) / 5 + d - 1
  let doe := yoe * 365 + yoe / 4 - yoe / 100 + doy
  (era * 146097 + doe : Int) - 719468 - 146097

/-- `time.Parse(time.RFC3339Nano, s)` as Go's RFC 3339 fast path reads it,
returning nanoseconds since the Unix epoch (of `t.UTC()`): a strict
`yyyy-mm-ddThh:mm:ss` prefix with the stated field ranges, an optional
fraction `.d+` (first nine digits kept), and a `Z`/`z` or `±hh:mm`
offset.  The general layout fall-back differs only in accepting a comma
before the fraction and rejecting a lowercase `z`; no theorem below feeds
the parser such a timestamp. -/
def parseRFC3339Nano (s : List Nat) : Option Int :=
  if s.length < 19 then none
  else if ¬ ((s.take 4).all isDigitB ∧ s.getD 4 0 = 45 ∧
      ((s.drop 5).take 2).all isDigitB ∧ s.getD 7 0 = 45 ∧
      ((s.drop 8).take 2).all isDigitB ∧ s.getD 10 0 = 84 ∧
      ((s.drop 11).take 2).all isDigitB ∧ s.getD 13 0 = 58 ∧
      ((s.drop 14).take 2).all isDigitB ∧ s.getD 16 0 = 58 ∧
      ((s.drop 17).take 2).all isDigitB) then none
  else
    let year := digitsVal (s.take 4)
    let month := digitsVal ((s.drop 5).take 2)
    let day := digitsVal ((s.drop 8).take 2)
    let hour := digitsVal ((s.drop 11).take 2)
    let minute := digitsVal ((s.drop 14).take 2)
    let sec := digitsVal ((s.drop 17).take 2)
    if ¬ (1 ≤ month ∧ month ≤ 12 ∧ 1 ≤ day ∧ day ≤ 31 ∧ hour ≤ 23 ∧
        minute ≤ 59 ∧ sec ≤ 59) then none
    else
      let rest := s.drop 19
      let fraclen := if 2 ≤ rest.length ∧ rest.getD 0 0 = 46 ∧
          isDigitB (rest.getD 1 0) then 1 + countDigits (rest.drop 1) else 0
      let ndig := min (fraclen - 1) 9
      let nsec := digitsVal ((rest.drop 1).take ndig) * 10 ^ (9 - ndig)
      let tz := rest.drop fraclen
      let base : Int := daysFromCivil year month day * 86400 +
        (hour * 3600 + minute * 60 + sec : Nat)
      if tz.length = 1 ∧ (tz.getD 0 0 = 90 ∨ tz.getD 0 0 = 122) then
        some (base * 1000000000 + nsec)
      else if tz.length = 6 ∧ (tz.getD 0 0 = 43 ∨ tz.getD 0 0 = 45) ∧
          isDigitB (tz.getD 1 0) ∧ isDigitB (tz.getD 2 0) ∧ tz.getD 3 0 = 58 ∧
          isDigitB (tz.getD 4 0) ∧ isDigitB (tz.getD 5 0) ∧
          digitsVal ((tz.drop 1).take 2) ≤ 23 ∧
          digitsVal ((tz.drop 4).take 2) ≤ 59 then
        let off : Int := (digitsVal ((tz.drop 1).take 2) * 3600 +
          digitsVal ((tz.drop 4).take 2) * 60 : Nat)
        let off := if tz.getD 0 0 = 45 then -off else off
        some ((base - off) * 1000000000 + nsec)
      else none

/-- `strings.SplitN(msg, " ", 2)`: `some (before, after)` at the first
space byte, `none` when there is none (so Go's `len(p) == 2` fails). -/
def splitSp : List Nat → Option (List Nat × List Nat)
  | [] => none
  | b :: t =>
    if b = 32 then some ([], t)
    else
      match splitSp t with
      | none => none
      | some (p, q) => some (b :: p, q)

/-- `emitEntry`: trim the raw line; when it contains a space and the part
before the first space parses as RFC3339Nano, that instant becomes the
timestamp and only the remainder is kept; classify the level and sanitize
the message.  `now` stands for `time.Now().UTC()`. -/
def emitEntry (now : Int) (raw : List Nat)
    (stream serviceID containerID : String) : LogEntry :=
  let msg := goTrimSpace raw
  match splitSp msg with
  | some (p0, p1) =>
    match parseRFC3339Nano p0 with
    | some t =>
      { ts := t
        serviceId := serviceID
        containerId := containerID
        level := inferLevel p1
        stream := stream
        message := sanitizeMessage p1 }
    | none =>
      { ts := now
        serviceId := serviceID
        containerId := containerID
        level := inferLevel msg
        stream := stream
        message := sanitizeMessage msg }
  | none =>
    { ts := now
      serviceId := serviceID
      containerId := containerID
      level := inferLevel msg
      stream := stream
      message := sanitizeMessage msg }

/-- `dropCR` of `bufio.ScanLines`: strip one trailing carriage return. -/
def dropCR (l : List Nat) : List Nat :=
  match l.getLast? with
  | some 13 => l.dropLast
  | _ => l

/-- Split at the first newline byte. -/
def splitNl : List Nat → Option (List Nat × List Nat)
  | [] => none
  | b :: t =>
    if b = 10 then some ([], t)
    else
      match splitNl t with
      | none => none
      | some (p, q) => some (b :: p, q)

/-- `parsePlainStream`: a `bufio.Scanner` with `ScanLines` — one entry per
newline-terminated line (carriage return stripped) plus a final
non-terminated line, empty final line dropped; a line reaching the 64 KiB
token limit stops the scan with `ErrTooLong` (the `false` flag), keeping
the entries already emitted.  Fuelled: each step consumes at least one
byte. -/
def parsePlainF : Nat → Int → String → String → List Nat →
    List LogEntry × Bool
  | _, _, _, _, [] => ([], true)
  | 0, _, _, _, _ :: _ => ([], false)
  | fuel + 1, now, sid, cid, b :: t =>
    match splitNl (b :: t) with
    | some (line, t2) =>
      if 65536 ≤ line.length then ([], false)
      else
        let r := parsePlainF fuel now sid cid t2
        (emitEntry now (dropCR line) "stdout" sid cid :: r.1, r.2)
    | none =>
      if 65536 ≤ (b :: t).length then ([], false)
      else ([emitEntry now (dropCR (b :: t)) "stdout" sid cid], true)

/-- `parsePlainStream` with the fuel instantiated. -/
def parsePlainStream (now : Int) (sid cid : String) (l : List Nat) :
    List LogEntry × Bool :=
  parsePlainF l.length now sid cid l

/-- `isMultiplexHeader` on the four lead bytes (`Peek(8)` having already
guaranteed eight): first byte 1 or 2, then three zero bytes. -/
def isMultiplexHeader (b0 b1 b2 b3 : Nat) : Bool :=
  (b0 = 1 ∨ b0 = 2) ∧ b1 = 0 ∧ b2 = 0 ∧ b3 = 0

/-- `binary.BigEndian.Uint32`. -/
def be32 (b3 b2 b1 b0 : Nat) : Nat :=
  ((b3 * 256 + b2) * 256 + b1) * 256 + b0

/-- `ParseDockerStream`: while eight bytes remain and they form a
multiplex header, consume the header, read the big-endian payload length
(a zero-length frame is skipped), read the payload (a short read stops
with an error, flag `false`) and emit one entry with stream `stderr` for
first header byte 2, else `stdout`; on fewer than eight bytes or a
non-header, fall back to the plain line scanner over everything not yet
consumed.  Fuelled: each loop iteration consumes eight bytes or more. -/
def parseDockerStreamF : Nat → Int → String → String → List Nat →
    List LogEntry × Bool
  | 0, _, _, _, _ => ([], false)
  | fuel + 1, now, sid, cid, l =>
    match l with
    | b0 :: b1 :: b2 :: b3 :: b4 :: b5 :: b6 :: b7 :: rest =>
      if isMultiplexHeader b0 b1 b2 b3 then
        let stream := if b0 = 2 then "stderr" else "stdout"
        let size := be32 b4 b5 b6 b7
        if size = 0 then parseDockerStreamF fuel now sid cid rest
        else if rest.length < size then ([], false)
        else
          let r := parseDockerStreamF fuel now sid cid (rest.drop size)
          (emitEntry now (rest.take size) stream sid cid :: r.1, r.2)
      else parsePlainStream now sid cid l
    | _ => parsePlainStream now sid cid l

/-- `ParseDockerStream` with the fuel instantiated. -/
def ParseDockerStream (now : Int) (sid cid : String) (l : List Nat) :
    List LogEntry × Bool :=
  parseDockerStreamF (l.length + 1) now sid cid l

/-- A multiplexed frame, for stating the round-trip. -/
structure Frame where
  streamByte : Nat
  payload : List Nat

/-- A frame the multiplex protocol can carry: stream byte 1 or 2, a
nonempty payload below 2^32 bytes. -/
def wfFrame (f : Frame) : Prop :=
  (f.streamByte = 1 ∨ f.streamByte = 2) ∧ 1 ≤ f.payload.length ∧
    f.payload.length < 4294967296

/-- The 8-byte header (stream byte, three zeros, big-endian length)
followed by the payload. -/
def encodeFrame (f : Frame) : List Nat :=
  f.streamByte :: 0 :: 0 :: 0 ::
    f.payload.length / 16777216 % 256 :: f.payload.length / 65536 % 256 ::
    f.payload.length / 256 % 256 :: f.payload.length % 256 :: f.payload

/-- A whole multiplexed stream. -/
def encodeFrames (fs : List Frame) : List Nat :=
  (fs.map encodeFrame).flatten

/-- A plain stream: every line newline-terminated. -/
def encodeLines (lines : List (List Nat)) : List Nat :=
  (lines.map (fun ln => ln ++ [10])).flatten

theorem be32_encode (n : Nat) (h : n < 4294967296) :
    be32 (n / 16777216 % 256) (n / 65536 % 256) (n / 256 % 256) (n % 256)
      = n := by
  simp only [be32]
  omega

theorem splitNl_append (ln rest : List Nat) (h : ¬ 10 ∈ ln) :
    splitNl (ln ++ 10 :: rest) = some (ln, rest) := by
  induction ln with
  | nil => rfl
  | cons b t ih =>
    simp only [List.mem_cons] at h
    push_neg at h
    simp only [List.cons_append, splitNl]
    rw [if_neg (Ne.symm h.1)]
    simp only [List.append_eq]
    rw [ih h.2]

theorem emitEntry_stream (now : Int) (raw : List Nat) (st sid cid : String) :
    (emitEntry now raw st sid cid).stream = st := by
  cases hsp : splitSp (goTrimSpace raw) with
  | none => simp only [emitEntry, hsp]
  | some p =>
    obtain ⟨p0, p1⟩ := p
    cases hp : parseRFC3339Nano p0 <;> simp only [emitEntry, hsp, hp]

/-- The plain scanner emits one entry per line. -/
theorem parsePlainF_encodeLines (now : Int) (sid cid : String) :
    ∀ (lines : List (List Nat)) (fuel : Nat),
      (∀ ln ∈ lines, ¬ 10 ∈ ln ∧ ln.length < 65536) →
      (encodeLines lines).length ≤ fuel →
      parsePlainF fuel now sid cid (encodeLines lines) =
        (lines.map (fun ln => emitEntry now (dropCR ln) "stdout" sid cid),
          true) := by
  intro lines
  induction lines with
  | nil =>
    intro fuel _ _
    cases fuel <;> rfl
  | cons ln lines' ih =>
    intro fuel hwf hf
    have hln := hwf ln (by simp)
    have henc : encodeLines (ln :: lines') = ln ++ 10 :: encodeLines lines' := by
      simp [encodeLines]
    rw [henc] at hf ⊢
    cases fuel with
    | zero =>
      exfalso
      have h1 : 1 ≤ (ln ++ 10 :: encodeLines lines').length := by
        simp only [List.length_append, List.length_cons]
        omega
      omega
    | succ k =>
      obtain ⟨b, t, hbt⟩ : ∃ b t, ln ++ 10 :: encodeLines lines' = b :: t := by
        cases hsh : ln ++ 10 :: encodeLines lines' with
        | nil => simp at hsh
        | cons b t => exact ⟨b, t, rfl⟩
      rw [hbt]
      simp only [parsePlainF]
      have hsp : splitNl (b :: t) = some (ln, encodeLines lines') := by
        rw [← hbt]
        exact splitNl_append _ _ hln.1
      simp only [hsp]
      rw [if_neg (by omega)]
      have hf' : (encodeLines lines').length ≤ k := by
        have := congrArg List.length hbt
        simp only [List.length_append, List.length_cons] at this hf
        omega
      rw [ih k (fun x hx => hwf x (List.mem_cons_of_mem _ hx)) hf']
      rfl

/-- The multiplex loop emits one entry per frame and ends cleanly. -/
theorem parseDockerStreamF_encodeFrames (now : Int) (sid cid : String) :
    ∀ (fs : List Frame) (fuel : Nat),
      (∀ f ∈ fs, wfFrame f) → (encodeFrames fs).length < fuel →
      parseDockerStreamF fuel now sid cid (encodeFrames fs) =
        (fs.map (fun f => emitEntry now f.payload
          (if f.streamByte = 2 then "stderr" else "stdout") sid cid),
          true) := by
  intro fs
  induction fs with
  | nil =>
    intro fuel _ hf
    cases fuel with
    | zero => simp [encodeFrames] at hf
    | succ k => rfl
  | cons f fs' ih =>
    intro fuel hwf hf
    obtain ⟨hs, hp1, hp2⟩ := hwf f (by simp)
    have henc : encodeFrames (f :: fs') = encodeFrame f ++ encodeFrames fs' := by
      simp [encodeFrames]
    have hE : encodeFrame f ++ encodeFrames fs' =
        f.streamByte :: 0 :: 0 :: 0 ::
        f.payload.length / 16777216 % 256 :: f.payload.length / 65536 % 256 ::
        f.payload.length / 256 % 256 :: f.payload.length % 256 ::
        (f.payload ++ encodeFrames fs') := by
      simp [encodeFrame]
    rw [henc] at hf ⊢
    cases fuel with
    | zero => exact absurd hf (Nat.not_lt_zero _)
    | succ k =>
      rw [hE]
      simp only [parseDockerStreamF]
      rw [if_pos (show isMultiplexHeader f.streamByte 0 0 0 = true from by
        simp [isMultiplexHeader]
        exact hs)]
      rw [be32_encode f.payload.length hp2]
      rw [if_neg (by omega)]
      rw [if_neg (show ¬ (f.payload ++ encodeFrames fs').length
          < f.payload.length from by
        rw [List.length_append]
        omega)]
      rw [List.take_left, List.drop_left]
      have hlen : (encodeFrame f ++ encodeFrames fs').length =
          8 + f.payload.length + (encodeFrames fs').length := by
        simp only [List.length_append, encodeFrame, List.length_cons]
        omega
      have hf' : (encodeFrames fs').length < k := by
        rw [hlen] at hf
        omega
      rw [ih k (fun x hx => hwf x (List.mem_cons_of_mem _ hx)) hf']
      rfl

/-- **C4.**  One entry per multiplexed frame (well-formed headers,
payloads read whole, clean end of stream), the emitted stream being
`stderr` exactly when the first header byte is 2; one entry per line on
the plain path (lines below the scanner's 64 KiB token cap); and the
concrete round-trip: header `{1,0,0,0, BE32 33}` with payload
`"2026-01-01T00:00:00Z hello world\n"` yields exactly one `stdout` entry
with level `INFO`, message `"hello world"` and the parsed RFC 3339
timestamp (in nanoseconds).  `serviceID`/`containerID` are passed
through. -/
theorem c4_parser_roundtrip (now : Int) (sid cid : String) :
    (∀ (fs : List Frame), (∀ f ∈ fs, wfFrame f) →
      ParseDockerStream now sid cid (encodeFrames fs) =
        (fs.map (fun f => emitEntry now f.payload
          (if f.streamByte = 2 then "stderr" else "stdout") sid cid),
          true)) ∧
    (∀ (lines : List (List Nat)),
      (∀ ln ∈ lines, ¬ 10 ∈ ln ∧ ln.length < 65536) →
      parsePlainStream now sid cid (encodeLines lines) =
        (lines.map (fun ln => emitEntry now (dropCR ln) "stdout" sid cid),
          true)) ∧
    (∀ (f : Frame), wfFrame f → f.streamByte = 2 →
      (ParseDockerStream now sid cid (encodeFrames [f])).1.map
        LogEntry.stream = ["stderr"]) ∧
    ParseDockerStream now "svc" "cid" ([1, 0, 0, 0, 0, 0, 0, 33] ++
        [50, 48, 50, 54, 45, 48, 49, 45, 48, 49, 84, 48, 48, 58, 48, 48, 58,
          48, 48, 90, 32, 104, 101, 108, 108, 111, 32, 119, 111, 114, 108,
          100, 10]) =
      ([{ ts := 1767225600000000000
          serviceId := "svc"
          containerId := "cid"
          level := "INFO"
          stream := "stdout"
          message := [104, 101, 108, 108, 111, 32, 119, 111, 114, 108,
            100] }], true) := by
  have hmain : ∀ (fs : List Frame), (∀ f ∈ fs, wfFrame f) →
      ParseDockerStream now sid cid (encodeFrames fs) =
        (fs.map (fun f => emitEntry now f.payload
          (if f.streamByte = 2 then "stderr" else "stdout") sid cid),
          true) := by
    intro fs hwf
    exact parseDockerStreamF_encodeFrames now sid cid fs _ hwf (by omega)
  refine ⟨hmain, ?_, ?_, ?_⟩
  · intro lines hl
    exact parsePlainF_encodeLines now sid cid lines _ hl le_rfl
  · intro f hwf h2
    rw [hmain [f] (by simpa using hwf)]
    simp [h2, emitEntry_stream]
  · rfl

/-- Witness for C4: a one-frame `stderr` stream and a one-line plain
stream, both with payload `"hi"`. -/
theorem c4_parser_roundtrip_witness :
    ParseDockerStream 0 "s" "c" (encodeFrames [⟨2, [104, 105]⟩]) =
      ([emitEntry 0 [104, 105] "stderr" "s" "c"], true) ∧
    parsePlainStream 0 "s" "c" (encodeLines [[104, 105]]) =
      ([emitEntry 0 [104, 105] "stdout" "s" "c"], true) := by
  obtain ⟨h1, h2, _, _⟩ := c4_parser_roundtrip 0 "s" "c"
  constructor
  · have := h1 [⟨2, [104, 105]⟩] (by
      intro f hf
      rw [List.mem_singleton] at hf
      subst hf
      exact ⟨Or.inr rfl, by decide, by decide⟩)
    simpa using this
  · have := h2 [[104, 105]] (by
      intro ln hln
      rw [List.mem_singleton] at hln
      subst hln
      exact ⟨by decide, by decide⟩)
    simpa using this

/-- Witness for C5 at the input `" hi"`: the sanitizer output is `"hi"`,
which is NUL-free, short, valid and trimmed. -/
theorem c5_sanitized_message_witness :
    (∀ b ∈ sanitizeMessage [32, 104, 105], b ≠ 0) ∧
    (sanitizeMessage [32, 104, 105]).length ≤ 4000 ∧
    validUTF8 (sanitizeMessage [32, 104, 105]) = true ∧
    noEdgeSpace (sanitizeMessage [32, 104, 105]) = true := by
  obtain ⟨h1, h2, h3⟩ := c5_sanitized_message [32, 104, 105]
  exact ⟨h1, h2, (h3 (by decide)).1, (h3 (by decide)).2⟩

end Dashi
